import Mathlib

/-!
Shallow embedding of the paged validator-election and exposure-snapshot
pipeline of the staking pallet, together with the staking-rewards pool
accounting, as exercised by `tests_paged_election.rs` and implemented or
declared in `staking-rewards/src/lib.rs`.

Account ids, balances, block numbers and era indices are modelled as `Nat`.
Storage maps are modelled as association lists.  The pallet-side functions
`store_stakers_info`, `add_electables`, `do_elect_paged_inner`,
`ensure_snapshot_metadata_state`, `electing_voters` and the paged-election
block driver are not part of the excerpted sources (only their tests are),
so they are modelled from the specification and calibrated against the
exact values asserted by the in-repository tests.
-/

/-- An individual nominator exposure, `IndividualExposure { who, value }`. -/
structure IndividualExposure where
  who : Nat
  value : Nat
deriving DecidableEq, Repr

/-- A full exposure handed to `store_stakers_info`, `Exposure { total, own, others }`. -/
structure Exposure where
  total : Nat
  own : Nat
  others : List IndividualExposure
deriving DecidableEq, Repr

/-- A stored exposure page, `ExposurePage { page_total, others }`. -/
structure ExposurePage where
  page_total : Nat
  others : List IndividualExposure
deriving DecidableEq, Repr

/-- Aggregate exposure metadata per (era, validator),
`PagedExposureMetadata { total, own, nominator_count, page_count }`. -/
structure PagedExposureMetadata where
  total : Nat
  own : Nat
  nominator_count : Nat
  page_count : Nat
deriving DecidableEq, Repr

/-- Sum of the stake values of a list of individual exposures. -/
def sumVals (l : List IndividualExposure) : Nat :=
  (l.map IndividualExposure.value).sum

/-- Ceiling division, `⌈n / d⌉` for natural numbers. -/
def ceilDiv (n d : Nat) : Nat := (n + d - 1) / d

/-- Fuel-driven worker for `chunksOf`; the fuel is an upper bound on the
list length, so the out-of-fuel branch is never reached in `chunksOf`. -/
def chunksGo {α : Type} (d : Nat) : Nat → List α → List (List α)
  | _, [] => []
  | 0, x :: xs => [x :: xs]
  | fuel + 1, x :: xs => (x :: xs).take d :: chunksGo d fuel ((x :: xs).drop d)

/-- Splits a list into consecutive chunks of `ps.max 1` elements
(the code guards the configured page size with `defensive_max(1)`). -/
def chunksOf {α : Type} (ps : Nat) (l : List α) : List (List α) :=
  chunksGo (ps.max 1) l.length l

/-- Builds a stored exposure page from a chunk of individual exposures. -/
def pageOfChunk (c : List IndividualExposure) : ExposurePage :=
  ⟨sumVals c, c⟩

/-- Modelled from the spec: splitting of an `Exposure` into aggregate metadata
plus storage pages of at most `MaxExposurePageSize` nominators each
(`Exposure::into_pages`, used by `store_stakers_info`; the function itself is
not in the excerpted sources). -/
def intoPages (ps : Nat) (e : Exposure) : PagedExposureMetadata × List ExposurePage :=
  let chunks := chunksOf ps e.others
  (⟨e.total, e.own, e.others.length, chunks.length⟩, chunks.map pageOfChunk)

/-- The stored exposure state for one (era, validator) pair: the optional
`ErasStakersOverview` metadata entry plus the `ErasStakersPaged` pages, the
page at list position `i` being the page stored at page index `i`. -/
structure ValidatorEraExposure where
  overview : Option PagedExposureMetadata
  pages : List ExposurePage
deriving DecidableEq, Repr

/-- The state of a (era, validator) pair with nothing stored. -/
def emptyVEE : ValidatorEraExposure := ⟨none, []⟩

/-- Modelled from the spec: the metadata update applied when a further
exposure is stored for a validator that already has an overview entry
(`PagedExposureMetadata::update_with`; not in the excerpted sources).
Calibrated against `store_stakers_info_elect_works`: `total` grows by the
new exposure's total minus its own stake, `own` is kept, and `page_count`
becomes the number of pages needed for all nominators seen so far. -/
def updateMetadata (ps : Nat) (m : PagedExposureMetadata) (e : Exposure) :
    PagedExposureMetadata :=
  let nc := m.nominator_count + e.others.length
  ⟨m.total + e.total - e.own, m.own, nc, ceilDiv nc (ps.max 1)⟩

/-- Modelled from the spec: appending freshly stored nominators to the pages
of a validator, first filling the free slots of the highest-indexed stored
page and only then creating new pages (behavior pinned by
`store_stakers_info_elect_works`, pages `(0,1,1)` and `(0,1,2)`). -/
def appendToPages (ps : Nat) (pages : List ExposurePage)
    (others : List IndividualExposure) : List ExposurePage :=
  match pages.getLast? with
  | none => (chunksOf ps others).map pageOfChunk
  | some last =>
    let slots := ps.max 1 - last.others.length
    let fill := others.take slots
    let rest := others.drop slots
    pages.dropLast ++ [⟨last.page_total + sumVals fill, last.others ++ fill⟩] ++
      (chunksOf ps rest).map pageOfChunk

/-- Modelled from the spec: `EraInfo::upsert_exposure` (not in the excerpted
sources) — stores one further `Exposure` for a validator in an era, creating
the overview on first store and otherwise accumulating into it. -/
def upsertExposure (ps : Nat) (e : Exposure) (st : ValidatorEraExposure) :
    ValidatorEraExposure :=
  match st.overview with
  | none =>
    let r := intoPages ps e
    ⟨some r.1, r.2⟩
  | some m => ⟨some (updateMetadata ps m e), appendToPages ps st.pages e.others⟩

/-- The cumulative effect on one (era, validator) entry of a sequence of
exposure stores, starting from nothing stored. -/
def upsertSeq (ps : Nat) (es : List Exposure) : ValidatorEraExposure :=
  es.foldl (fun st e => upsertExposure ps e st) emptyVEE

/-- Association-list lookup (model of a storage map read). -/
def alookup {α β : Type} [DecidableEq α] : List (α × β) → α → Option β
  | [], _ => none
  | (k, x) :: rest, v => if v = k then some x else alookup rest v

/-- Association-list upsert (model of a storage map `mutate` with default). -/
def aupsert {α β : Type} [DecidableEq α] (d : β) (k : α) (f : β → β) :
    List (α × β) → List (α × β)
  | [] => [(k, f d)]
  | (k', x) :: rest => if k = k' then (k', f x) :: rest else (k', x) :: aupsert d k f rest

/-- Association-list overwrite (model of a storage map `insert`). -/
def aset {α β : Type} [DecidableEq α] (k : α) (v : β) :
    List (α × β) → List (α × β)
  | [] => [(k, v)]
  | (k', x) :: rest => if k = k' then (k, v) :: rest else (k', x) :: aset k v rest

/-- The exposure store for one era: validator id ↦ stored exposure state. -/
abbrev ExposureStore := List (Nat × ValidatorEraExposure)

/-- Modelled from the spec: `Pallet::store_stakers_info` (not in the excerpted
sources) — stores a batch of (validator, exposure) entries for one fetched
election page, upserting each validator's (era, validator) entry in turn, and
returns the list of validators touched. -/
def storeStakersInfo (ps : Nat) (entries : List (Nat × Exposure))
    (st : ExposureStore) : ExposureStore × List Nat :=
  (entries.foldl (fun acc p => aupsert emptyVEE p.1 (upsertExposure ps p.2) acc) st,
   entries.map (fun p => p.1))

/-- The cumulative exposure store after a sequence of `store_stakers_info`
calls for one era. -/
def storeSeq (ps : Nat) (calls : List (List (Nat × Exposure)))
    (st : ExposureStore) : ExposureStore :=
  calls.foldl (fun acc c => (storeStakersInfo ps c acc).1) st

/-- The exposures passed for validator `v` across a sequence of
`store_stakers_info` calls, in call order. -/
def mentionsOf (v : Nat) (calls : List (List (Nat × Exposure))) : List Exposure :=
  (calls.flatMap (fun c => c.filter (fun p => p.1 = v))).map (fun p => p.2)

/-- Modelled from the spec: `EraInfo::get_full_exposure` — reconstructs the
flattened exposure of a validator from the overview and the stored pages;
a validator with nothing stored yields the default exposure with total 0. -/
def getFullExposure (st : ExposureStore) (v : Nat) : Exposure :=
  match alookup st v with
  | none => ⟨0, 0, []⟩
  | some vee =>
    match vee.overview with
    | none => ⟨0, 0, []⟩
    | some m => ⟨m.total, m.own, (vee.pages.map ExposurePage.others).flatten⟩

/-- Modelled from the spec: `EraInfo::get_page_count` — the number of stored
exposure pages of a validator in an era. -/
def getPageCount (st : ExposureStore) (v : Nat) : Nat :=
  match alookup st v with
  | none => 0
  | some vee => vee.pages.length

/-- Sorted insertion into a (strictly sorted) list of account ids; models
insertion into the `BoundedBTreeSet` backing `ElectableStashes`. -/
def insertSorted (x : Nat) : List Nat → List Nat
  | [] => [x]
  | y :: ys => if x ≤ y then x :: y :: ys else y :: insertSorted x ys

/-- Set-union of a list of candidates into a sorted set, inserting fresh
elements in list order (deduplicating against the current contents). -/
def unionS (l : List Nat) (s : List Nat) : List Nat :=
  l.foldl (fun acc x => if x ∈ acc then acc else insertSorted x acc) s

/-- Modelled from the spec: `Pallet::add_electables` (not in the excerpted
sources) — inserts candidate stashes into the bounded `ElectableStashes` set
one by one, deduplicating, and stops with an error as soon as a fresh
candidate no longer fits within `MaxValidatorSet`; the insertions done up to
that point are kept (fill-to-capacity-then-fail). -/
def addElectables (maxV : Nat) (st : List Nat) : List Nat → List Nat × Bool
  | [] => (st, false)
  | x :: xs =>
    if x ∈ st then addElectables maxV st xs
    else if st.length < maxV then addElectables maxV (insertSorted x st) xs
    else (st, true)

/-- One page of election results for one winner, `Support { total, voters }`. -/
structure Support where
  total : Nat
  voters : List (Nat × Nat)
deriving DecidableEq, Repr

/-- Modelled from the spec: conversion of a winner's `Support` into its
`Exposure` (`collect_exposures`; not in the excerpted sources): self-votes
feed `own`, other voters become individual exposures, and `total` is the sum
of all voted stake. -/
def collectExposure (v : Nat) (s : Support) : Exposure :=
  ⟨(s.voters.map (fun p => p.2)).sum,
   ((s.voters.filter (fun p => p.1 = v)).map (fun p => p.2)).sum,
   (s.voters.filter (fun p => p.1 ≠ v)).map (fun p => ⟨p.1, p.2⟩)⟩

/-- The election-cursor state touched by `do_elect_paged_inner`: the
`ElectableStashes` set and the exposure store of the upcoming era. -/
structure ElectState where
  electable : List Nat
  exposures : ExposureStore
deriving DecidableEq, Repr

/-- The election-cursor state with nothing collected yet. -/
def emptyElectState : ElectState := ⟨[], []⟩

/-- Modelled from the spec: `Pallet::do_elect_paged_inner` (not in the
excerpted sources) — adds the page's winners to `ElectableStashes`
(fill-to-capacity on overflow, reporting an error), and stores exposures for
exactly those winners that made it into the set, as pinned by
`overflow_electable_stashes_no_exposures_work`. -/
def doElectPagedInner (maxV ps : Nat) (supports : List (Nat × Support))
    (st : ElectState) : ElectState × Bool :=
  let r := addElectables maxV st.electable (supports.map (fun p => p.1))
  let kept := supports.filter (fun p => p.1 ∈ r.1)
  let entries := kept.map (fun p => (p.1, collectExposure p.1 p.2))
  (⟨r.1, (storeStakersInfo ps entries st.exposures).1⟩, r.2)

/-- The election metadata inspected by `ensure_snapshot_metadata_state`:
the `ElectingStartedAt` cursor, the `ElectableStashes` set, and the number of
exposure pages recorded for each stash in the upcoming era. -/
structure MetaState where
  electingStartedAt : Option Nat
  electableStashes : List Nat
  upcomingPageCount : Nat → Nat

/-- Modelled from the spec: the state-validation routine
`ensure_snapshot_metadata_state` (not in the excerpted sources): given the
current block `now` and the block `startBlock` at which election preparation
was scheduled to start, it checks the election-metadata invariants and
returns the error messages asserted by `try_state_failure_works`. -/
def ensureSnapshotMetadataState (now startBlock : Nat) (st : MetaState) :
    Except String Unit :=
  match st.electingStartedAt with
  | none =>
    if st.electableStashes.isEmpty then Except.ok ()
    else if startBlock ≤ now then
      Except.error "election prep should have started already, no election metadata in storage."
    else
      Except.error "unexpected electable stashes in storage while election prep has not started."
  | some b =>
    if b = startBlock then
      if st.electableStashes.all (fun s => 0 < st.upcomingPageCount s) then Except.ok ()
      else Except.error "no exposures collected for an electable stash."
    else if now < startBlock then
      Except.error "unexpected election metadata while election prep has not started."
    else
      Except.error "unexpected electing_started_at block number in storage."

/-- The chain state observed by the paged-election tests: the current era,
the election metadata, the live session validator set, and the validator set
queued at the last era rotation but not yet live. -/
structure ChainState where
  currentEra : Nat
  electingStartedAt : Option Nat
  electableStashes : List Nat
  sessionValidators : List Nat
  queuedValidators : Option (List Nat)
deriving DecidableEq, Repr

/-- Applies a queued validator set at a session boundary: the set handed to
the session layer at the previous era rotation becomes live. -/
def applyQueued (st : ChainState) : ChainState :=
  match st.queuedValidators with
  | some q => { st with sessionValidators := q, queuedValidators := none }
  | none => st

/-- Modelled from the spec: the per-block driver of the paged election
(`on_initialize`; not in the excerpted sources).  With predicted election
block `E` and `pages` election pages, preparation starts at block
`E - pages` (setting `ElectingStartedAt` and fetching the first page), each
following block up to `E - 1` fetches a further page accumulating the
elected stashes, and block `E` rotates the era: it clears the election
metadata and hands the electable stashes to the session layer, which makes
them live at the following session boundary (as asserted by
`single_page_election_works`, where the old validator set is still live at
block `E`). -/
def onInit (E pages : Nat) (elected : List Nat) (b : Nat) (st : ChainState) :
    ChainState :=
  let st := applyQueued st
  if b = E then
    { st with
      currentEra := st.currentEra + 1
      electingStartedAt := none
      electableStashes := []
      queuedValidators := some st.electableStashes }
  else if E - pages ≤ b ∧ b < E then
    { st with
      electingStartedAt := some (st.electingStartedAt.getD b)
      electableStashes := unionS elected st.electableStashes }
  else st

/-- The genesis chain state. -/
def initChain (genesis : List Nat) : ChainState := ⟨0, none, [], genesis, none⟩

/-- Runs the per-block election driver from genesis up to and including
block `b`. -/
def runTo (E pages : Nat) (elected genesis : List Nat) : Nat → ChainState
  | 0 => initChain genesis
  | b + 1 => onInit E pages elected (b + 1) (runTo E pages elected genesis b)

/-- The voter-snapshot status, `SnapshotStatus { Waiting, Consumed }`. -/
inductive SnapshotStatus where
  | waiting
  | consumed
deriving DecidableEq, Repr

/-- The voter-snapshot state: the not-yet-served tail of the voter list and
the stored `VoterSnapshotStatus`. -/
structure VoterSnap where
  remaining : List Nat
  status : SnapshotStatus
deriving DecidableEq, Repr

/-- The fresh voter-snapshot state at the start of a snapshot cycle. -/
def initVoterSnap (voters : List Nat) : VoterSnap := ⟨voters, .waiting⟩

/-- Modelled from the spec: `electing_voters` (not in the excerpted sources).
Pages are requested from high index down to 0; each request serves up to
`bound` voters from the not-yet-served tail of the list, the status becomes
`Consumed` once the list is exhausted (further nonzero pages serve nothing),
and the request for page 0 resets the snapshot to `Waiting` for the next
cycle, as asserted by `voter_snapshot_works`. -/
def electingVoters (voters : List Nat) (bound page : Nat) (st : VoterSnap) :
    List Nat × VoterSnap :=
  match st.status with
  | .consumed => if page = 0 then ([], initVoterSnap voters) else ([], st)
  | .waiting =>
    let served := st.remaining.take bound
    let rem := st.remaining.drop bound
    if page = 0 then (served, initVoterSnap voters)
    else if rem.isEmpty then (served, ⟨rem, .consumed⟩)
    else (served, ⟨rem, .waiting⟩)

/-- Serves voter pages `p, p-1, …, 0` in descending order, concatenating the
served voters in serve order. -/
def servePages (voters : List Nat) (bound : Nat) : Nat → VoterSnap → List Nat × VoterSnap
  | 0, st => electingVoters voters bound 0 st
  | p + 1, st =>
    let r := electingVoters voters bound (p + 1) st
    let r2 := servePages voters bound p r.2
    (r.1 ++ r2.1, r2.2)

/-- A staking pool, `PoolInfo` (from `staking-rewards/src/lib.rs`). -/
structure PoolInfo where
  staking_asset_id : Nat
  reward_asset_id : Nat
  reward_rate_per_block : Nat
  total_tokens_staked : Nat
  accumulated_rewards_per_share : Nat
  last_rewarded_block : Nat
deriving DecidableEq, Repr

/-- A pool staker, `PoolStakerInfo` (from `staking-rewards/src/lib.rs`). -/
structure PoolStakerInfo where
  amount : Nat
  rewards : Nat
  reward_debt : Nat
deriving DecidableEq, Repr

/-- The staking-rewards error taxonomy: `Error::NonExistentPool` (from
`staking-rewards/src/lib.rs`) and the insufficient-balance domain error. -/
inductive RewardsError where
  | nonExistentPool
  | insufficientBalance
deriving DecidableEq, Repr

/-- The staking-rewards pallet state: the `Pools` map and the `PoolStakers`
double map. -/
structure RewardsState where
  pools : List (Nat × PoolInfo)
  stakers : List ((Nat × Nat) × PoolStakerInfo)

/-- Embedding of `Pallet::pool_account_id` (from `staking-rewards/src/lib.rs`):
returns the pot account derived from the pallet id and the pool id when the
pool exists in `Pools`, and fails with `NonExistentPool` otherwise; the
derivation `into_sub_account_truncating` is abstracted as `subAccount`. -/
def poolAccountId (pools : List (Nat × PoolInfo)) (subAccount : Nat → Nat)
    (id : Nat) : Except RewardsError Nat :=
  if (alookup pools id).isSome then Except.ok (subAccount id)
  else Except.error RewardsError.nonExistentPool

/-- Modelled from the spec: `update_pool_rewards` (a `todo!()` stub in
`staking-rewards/src/lib.rs`, semantics given in §4.4): lazily accrues
`accumulated_rewards_per_share` for the blocks elapsed since the last
update, with truncating division. -/
def updatePoolRewards (now : Nat) (p : PoolInfo) : PoolInfo :=
  let elapsed := now - p.last_rewarded_block
  if 0 < elapsed ∧ 0 < p.total_tokens_staked then
    { p with
      accumulated_rewards_per_share :=
        p.accumulated_rewards_per_share +
          p.reward_rate_per_block * elapsed / p.total_tokens_staked
      last_rewarded_block := now }
  else p

/-- Modelled from the spec: `stake` (a `todo!()` stub in
`staking-rewards/src/lib.rs`, semantics given in §4.4): fails with
`NonExistentPool` on a nonexistent pool, otherwise settles pending rewards
and increases the staked amount. -/
def stake (now poolId who amount : Nat) (st : RewardsState) :
    Except RewardsError RewardsState :=
  match alookup st.pools poolId with
  | none => Except.error RewardsError.nonExistentPool
  | some p0 =>
    let p := updatePoolRewards now p0
    let s := (alookup st.stakers (poolId, who)).getD ⟨0, 0, 0⟩
    let pending := s.amount * p.accumulated_rewards_per_share - s.reward_debt
    let amount' := s.amount + amount
    Except.ok
      ⟨aset poolId { p with total_tokens_staked := p.total_tokens_staked + amount } st.pools,
       aset (poolId, who)
         ⟨amount', s.rewards + pending, amount' * p.accumulated_rewards_per_share⟩
         st.stakers⟩

/-- Modelled from the spec: `unstake` (a `todo!()` stub in
`staking-rewards/src/lib.rs`, semantics given in §4.4): fails with
`NonExistentPool` on a nonexistent pool, with the insufficient-balance error
when unstaking more than is staked, and otherwise settles pending rewards
and decreases the staked amount. -/
def unstake (now poolId who amount : Nat) (st : RewardsState) :
    Except RewardsError RewardsState :=
  match alookup st.pools poolId with
  | none => Except.error RewardsError.nonExistentPool
  | some p0 =>
    let p := updatePoolRewards now p0
    let s := (alookup st.stakers (poolId, who)).getD ⟨0, 0, 0⟩
    if amount ≤ s.amount then
      let pending := s.amount * p.accumulated_rewards_per_share - s.reward_debt
      let amount' := s.amount - amount
      Except.ok
        ⟨aset poolId { p with total_tokens_staked := p.total_tokens_staked - amount } st.pools,
         aset (poolId, who)
           ⟨amount', s.rewards + pending, amount' * p.accumulated_rewards_per_share⟩
           st.stakers⟩
    else Except.error RewardsError.insufficientBalance

/-- Modelled from the spec: `harvest_rewards` (a `todo!()` stub in
`staking-rewards/src/lib.rs`, semantics given in §4.4): fails with
`NonExistentPool` on a nonexistent pool, otherwise settles pending rewards,
pays out the full rewards balance and zeroes it; the paid amount is
returned together with the new state. -/
def harvestRewards (now poolId who : Nat) (st : RewardsState) :
    Except RewardsError (Nat × RewardsState) :=
  match alookup st.pools poolId with
  | none => Except.error RewardsError.nonExistentPool
  | some p0 =>
    let p := updatePoolRewards now p0
    let s := (alookup st.stakers (poolId, who)).getD ⟨0, 0, 0⟩
    let pending := s.amount * p.accumulated_rewards_per_share - s.reward_debt
    let paid := s.rewards + pending
    Except.ok
      (paid,
       ⟨aset poolId p st.pools,
        aset (poolId, who)
          ⟨s.amount, 0, s.amount * p.accumulated_rewards_per_share⟩
          st.stakers⟩)

/-- The first exposure stored for validator 1 in
`store_stakers_info_elect_works`. -/
def exposureOne : Exposure :=
  ⟨1700, 1000, [⟨101, 500⟩, ⟨102, 100⟩, ⟨103, 100⟩]⟩

/-- The exposure stored for validator 2 in `store_stakers_info_elect_works`. -/
def exposureTwo : Exposure :=
  ⟨2000, 1000, [⟨104, 500⟩, ⟨105, 500⟩]⟩

/-- The second exposure stored for validator 1 in
`store_stakers_info_elect_works`. -/
def exposureThree : Exposure :=
  ⟨1500, 1000, [⟨110, 250⟩, ⟨111, 250⟩]⟩

/-- Shape invariant of the stored pages of one (era, validator) pair with
page-size bound `d`: every page except the highest-indexed one is exactly
full, every page is nonempty and within bound, and every page's `page_total`
is the sum of its nominators' stake. -/
def pagesWF (d : Nat) (pages : List ExposurePage) : Prop :=
  (∀ p ∈ pages.dropLast, p.others.length = d) ∧
  (∀ p ∈ pages, 0 < p.others.length ∧ p.others.length ≤ d) ∧
  (∀ p ∈ pages, p.page_total = sumVals p.others)

/-- Well-formedness of a stored (era, validator) entry: no pages without an
overview, and with an overview the pages satisfy the shape invariant while
the metadata counts agree with the pages. -/
def veeWF (ps : Nat) (st : ValidatorEraExposure) : Prop :=
  match st.overview with
  | none => st.pages = []
  | some m =>
    pagesWF (ps.max 1) st.pages ∧
    m.nominator_count = (st.pages.map (fun p => p.others.length)).sum ∧
    m.page_count = st.pages.length

/-- Exposure upsert lifted to an optional stored entry (the view of one
validator's storage through a `store_stakers_info` call that mentions it). -/
def upsertO (ps : Nat) (e : Exposure) (r : Option ValidatorEraExposure) :
    Option ValidatorEraExposure :=
  some (upsertExposure ps e (r.getD emptyVEE))

/-- The `nominator_count` recorded for a stored entry (0 when absent). -/
def ncOf (st : ValidatorEraExposure) : Nat :=
  match st.overview with
  | none => 0
  | some m => m.nominator_count

/-- The `total` recorded for a stored entry (0 when absent). -/
def totalOf (st : ValidatorEraExposure) : Nat :=
  match st.overview with
  | none => 0
  | some m => m.total

/-- The `own` stake recorded for a stored entry (0 when absent). -/
def ownOf (st : ValidatorEraExposure) : Nat :=
  match st.overview with
  | none => 0
  | some m => m.own

/-- The sum of the stored pages' `page_total` values of a stored entry. -/
def ptSum (st : ValidatorEraExposure) : Nat :=
  (st.pages.map (fun p => p.page_total)).sum

theorem mem_insertSorted (x a : Nat) :
    ∀ l : List Nat, a ∈ insertSorted x l ↔ a = x ∨ a ∈ l
  | [] => by simp [insertSorted]
  | y :: ys => by
    simp only [insertSorted]
    split
    · simp only [List.mem_cons]
    · simp only [List.mem_cons, mem_insertSorted x a ys]
      tauto

theorem length_insertSorted (x : Nat) :
    ∀ l : List Nat, (insertSorted x l).length = l.length + 1
  | [] => rfl
  | y :: ys => by
    simp only [insertSorted]
    split
    · simp
    · simp [length_insertSorted x ys]

theorem unionS_nil (s : List Nat) : unionS [] s = s := rfl

theorem unionS_cons (x : Nat) (l s : List Nat) :
    unionS (x :: l) s = unionS l (if x ∈ s then s else insertSorted x s) := rfl

theorem length_le_unionS : ∀ (l s : List Nat), s.length ≤ (unionS l s).length
  | [], _ => Nat.le_refl _
  | x :: l, s => by
    rw [unionS_cons]
    split
    · exact length_le_unionS l s
    · calc s.length ≤ (insertSorted x s).length := by
            rw [length_insertSorted]; omega
        _ ≤ _ := length_le_unionS l (insertSorted x s)

theorem mem_unionS_of_mem (a : Nat) : ∀ (l s : List Nat), a ∈ s → a ∈ unionS l s
  | [], _, h => h
  | x :: l, s, h => by
    rw [unionS_cons]
    split
    · exact mem_unionS_of_mem a l s h
    · exact mem_unionS_of_mem a l _ ((mem_insertSorted x a s).mpr (Or.inr h))

theorem mem_unionS_self (a : Nat) : ∀ (l s : List Nat), a ∈ l → a ∈ unionS l s
  | [], _, h => by cases h
  | x :: l, s, h => by
    rcases List.mem_cons.mp h with h | h
    · subst h
      rw [unionS_cons]
      split
      · next hx => exact mem_unionS_of_mem a l s hx
      · exact mem_unionS_of_mem a l _ ((mem_insertSorted a a s).mpr (Or.inl rfl))
    · rw [unionS_cons]
      exact mem_unionS_self a l _ h

theorem unionS_eq_of_subset : ∀ (l s : List Nat), (∀ x ∈ l, x ∈ s) → unionS l s = s
  | [], _, _ => rfl
  | x :: l, s, h => by
    rw [unionS_cons, if_pos (h x (List.mem_cons_self x l))]
    exact unionS_eq_of_subset l s (fun y hy => h y (List.mem_cons_of_mem x hy))

theorem length_unionS_nodup :
    ∀ (l s : List Nat), l.Nodup → (∀ x ∈ l, x ∉ s) →
      (unionS l s).length = s.length + l.length
  | [], _, _, _ => rfl
  | x :: l, s, hnd, hdis => by
    rw [unionS_cons, if_neg (hdis x (List.mem_cons_self x l))]
    rw [length_unionS_nodup l _ (List.nodup_cons.mp hnd).2]
    · rw [length_insertSorted]; simp only [List.length_cons]; omega
    · intro y hy hmem
      rcases (mem_insertSorted x y s).mp hmem with h | h
      · exact (List.nodup_cons.mp hnd).1 (h ▸ hy)
      · exact hdis y (List.mem_cons_of_mem x hy) h

theorem ceilDiv_of_zero (d : Nat) : ceilDiv 0 d = 0 := by
  rcases Nat.eq_zero_or_pos d with h | h
  · subst h; rfl
  · unfold ceilDiv
    exact Nat.div_eq_of_lt (by omega)

theorem ceilDiv_one_le (r d : Nat) (h1 : 0 < r) (h2 : r ≤ d) : ceilDiv r d = 1 := by
  have hd : 0 < d := lt_of_lt_of_le h1 h2
  unfold ceilDiv
  apply Nat.le_antisymm
  · have : r + d - 1 < 2 * d := by omega
    have := (Nat.div_lt_iff_lt_mul hd).mpr (by omega : r + d - 1 < 2 * d)
    omega
  · exact (Nat.le_div_iff_mul_le hd).mpr (by omega)

theorem ceilDiv_add_self (m d : Nat) (hd : 0 < d) :
    ceilDiv (m + d) d = ceilDiv m d + 1 := by
  unfold ceilDiv
  rw [show m + d + d - 1 = (m + d - 1) + d by omega, Nat.add_div_right _ hd]

theorem chunksGo_irrel {α : Type} (d : Nat) (hd : 0 < d) :
    ∀ (fuel fuel' : Nat) (l : List α), l.length ≤ fuel → l.length ≤ fuel' →
      chunksGo d fuel l = chunksGo d fuel' l
  | fuel, fuel', [], _, _ => by
    cases fuel <;> cases fuel' <;> rfl
  | fuel + 1, fuel' + 1, x :: xs, h, h' => by
    unfold chunksGo
    have hlen := List.length_drop d (x :: xs)
    simp only [List.length_cons] at h h' hlen
    rw [chunksGo_irrel d hd fuel fuel' ((x :: xs).drop d) (by omega) (by omega)]
  | 0, _, x :: xs, h, _ => by simp at h
  | _ + 1, 0, x :: xs, _, h' => by simp at h'

theorem chunksOf_nil {α : Type} (ps : Nat) : chunksOf ps ([] : List α) = [] := rfl

theorem chunksOf_cons {α : Type} (ps : Nat) (x : α) (xs : List α) :
    chunksOf ps (x :: xs) =
      (x :: xs).take (ps.max 1) :: chunksOf ps ((x :: xs).drop (ps.max 1)) := by
  have hd : 0 < ps.max 1 := Nat.le_max_right ps 1
  show chunksGo (ps.max 1) (x :: xs).length (x :: xs) = _
  have h1 : chunksGo (ps.max 1) (x :: xs).length (x :: xs) =
      (x :: xs).take (ps.max 1) ::
        chunksGo (ps.max 1) xs.length ((x :: xs).drop (ps.max 1)) := rfl
  rw [h1]
  unfold chunksOf
  rw [chunksGo_irrel (ps.max 1) hd xs.length ((x :: xs).drop (ps.max 1)).length
    ((x :: xs).drop (ps.max 1))
    (by simp only [List.length_drop, List.length_cons]; omega) (Nat.le_refl _)]

theorem chunksOf_eq_nil_iff {α : Type} (ps : Nat) (l : List α) :
    chunksOf ps l = [] ↔ l = [] := by
  cases l with
  | nil => simp [chunksOf_nil]
  | cons x xs => simp [chunksOf_cons]

theorem chunksOf_length {α : Type} (ps : Nat) :
    ∀ l : List α, (chunksOf ps l).length = ceilDiv l.length (ps.max 1)
  | [] => by simp [chunksOf_nil, ceilDiv_of_zero]
  | x :: xs => by
    have h1 : 1 ≤ ps.max 1 := Nat.le_max_right ps 1
    rw [chunksOf_cons]
    simp only [List.length_cons]
    rw [chunksOf_length ps ((x :: xs).drop (ps.max 1))]
    simp only [List.length_drop, List.length_cons]
    by_cases hc : xs.length + 1 ≤ ps.max 1
    · rw [show xs.length + 1 - ps.max 1 = 0 by omega, ceilDiv_of_zero,
        ceilDiv_one_le (xs.length + 1) (ps.max 1) (by omega) hc]
    · have h2 := ceilDiv_add_self (xs.length + 1 - ps.max 1) (ps.max 1) (by omega)
      rw [show xs.length + 1 - ps.max 1 + ps.max 1 = xs.length + 1 by omega] at h2
      omega
termination_by l => l.length
decreasing_by
  have h1 : 1 ≤ ps.max 1 := Nat.le_max_right ps 1
  simp only [List.length_drop, List.length_cons]
  omega

theorem chunksOf_sum_length {α : Type} (ps : Nat) :
    ∀ l : List α, ((chunksOf ps l).map List.length).sum = l.length
  | [] => by simp [chunksOf_nil]
  | x :: xs => by
    have h1 : 1 ≤ ps.max 1 := Nat.le_max_right ps 1
    rw [chunksOf_cons]
    simp only [List.map_cons, List.sum_cons]
    rw [chunksOf_sum_length ps ((x :: xs).drop (ps.max 1))]
    simp only [List.length_take, List.length_drop, List.length_cons]
    omega
termination_by l => l.length
decreasing_by
  have h1 : 1 ≤ ps.max 1 := Nat.le_max_right ps 1
  simp only [List.length_drop, List.length_cons]
  omega

theorem chunksOf_mem_length {α : Type} (ps : Nat) :
    ∀ l : List α, ∀ c ∈ chunksOf ps l, 0 < c.length ∧ c.length ≤ ps.max 1
  | [] => by simp [chunksOf_nil]
  | x :: xs => by
    have h1 : 1 ≤ ps.max 1 := Nat.le_max_right ps 1
    rw [chunksOf_cons]
    intro c hc
    rcases List.mem_cons.mp hc with h | h
    · subst h
      simp only [List.length_take, List.length_cons]
      omega
    · exact chunksOf_mem_length ps ((x :: xs).drop (ps.max 1)) c h
termination_by l => l.length
decreasing_by
  have h1 : 1 ≤ ps.max 1 := Nat.le_max_right ps 1
  simp only [List.length_drop, List.length_cons]
  omega

theorem chunksOf_dropLast_full {α : Type} (ps : Nat) :
    ∀ l : List α, ∀ c ∈ (chunksOf ps l).dropLast, c.length = ps.max 1
  | [] => by simp [chunksOf_nil]
  | x :: xs => by
    have h1 : 1 ≤ ps.max 1 := Nat.le_max_right ps 1
    rw [chunksOf_cons]
    intro c hc
    by_cases hrest : (x :: xs).drop (ps.max 1) = []
    · rw [hrest, chunksOf_nil] at hc
      simp at hc
    · have hne : chunksOf ps ((x :: xs).drop (ps.max 1)) ≠ [] := by
        rw [Ne, chunksOf_eq_nil_iff]; exact hrest
      rw [List.dropLast_cons_of_ne_nil hne] at hc
      rcases List.mem_cons.mp hc with h | h
      · subst h
        have hlen : ps.max 1 < (x :: xs).length := by
          by_contra hcon
          exact hrest (List.drop_eq_nil_iff_le.mpr (by omega))
        simp only [List.length_take, List.length_cons]
        simp only [List.length_cons] at hlen
        omega
      · exact chunksOf_dropLast_full ps ((x :: xs).drop (ps.max 1)) c h
termination_by l => l.length
decreasing_by
  have h1 : 1 ≤ ps.max 1 := Nat.le_max_right ps 1
  simp only [List.length_drop, List.length_cons]
  omega

theorem sumVals_append (a b : List IndividualExposure) :
    sumVals (a ++ b) = sumVals a + sumVals b := by
  unfold sumVals
  rw [List.map_append, List.sum_append]

theorem chunksOf_sum_vals (ps : Nat) :
    ∀ l : List IndividualExposure, ((chunksOf ps l).map sumVals).sum = sumVals l
  | [] => by simp [chunksOf_nil, sumVals]
  | x :: xs => by
    rw [chunksOf_cons]
    simp only [List.map_cons, List.sum_cons]
    rw [chunksOf_sum_vals ps ((x :: xs).drop (ps.max 1))]
    have := List.take_append_drop (ps.max 1) (x :: xs)
    calc sumVals ((x :: xs).take (ps.max 1)) + sumVals ((x :: xs).drop (ps.max 1))
        = sumVals ((x :: xs).take (ps.max 1) ++ (x :: xs).drop (ps.max 1)) := by
          unfold sumVals
          rw [List.map_append, List.sum_append]
      _ = sumVals (x :: xs) := by rw [this]
termination_by l => l.length
decreasing_by
  have h1 : 1 ≤ ps.max 1 := Nat.le_max_right ps 1
  simp only [List.length_drop, List.length_cons]
  omega

theorem pagesWF_chunks (ps : Nat) (others : List IndividualExposure) :
    pagesWF (ps.max 1) ((chunksOf ps others).map pageOfChunk) := by
  refine ⟨?_, ?_, ?_⟩
  · intro p hp
    rw [← List.map_dropLast] at hp
    rcases List.mem_map.mp hp with ⟨c, hc, rfl⟩
    exact chunksOf_dropLast_full ps others c hc
  · intro p hp
    rcases List.mem_map.mp hp with ⟨c, hc, rfl⟩
    exact chunksOf_mem_length ps others c hc
  · intro p hp
    rcases List.mem_map.mp hp with ⟨c, hc, rfl⟩
    rfl

theorem chunk_pages_sum_length (ps : Nat) (others : List IndividualExposure) :
    (((chunksOf ps others).map pageOfChunk).map (fun p => p.others.length)).sum =
      others.length := by
  rw [List.map_map]
  exact chunksOf_sum_length ps others

theorem chunk_pages_sum_pts (ps : Nat) (others : List IndividualExposure) :
    (((chunksOf ps others).map pageOfChunk).map (fun p => p.page_total)).sum =
      sumVals others := by
  rw [List.map_map]
  exact chunksOf_sum_vals ps others

theorem appendToPages_nil (ps : Nat) (others : List IndividualExposure) :
    appendToPages ps [] others = (chunksOf ps others).map pageOfChunk := rfl

theorem appendToPages_concat (ps : Nat) (init : List ExposurePage)
    (last : ExposurePage) (others : List IndividualExposure) :
    appendToPages ps (init ++ [last]) others =
      init ++
        [⟨last.page_total + sumVals (others.take (ps.max 1 - last.others.length)),
          last.others ++ others.take (ps.max 1 - last.others.length)⟩] ++
        (chunksOf ps (others.drop (ps.max 1 - last.others.length))).map pageOfChunk := by
  unfold appendToPages
  rw [List.getLast?_concat]
  simp only [List.dropLast_concat]

theorem appendToPages_sum_lens (ps : Nat) (pages : List ExposurePage)
    (others : List IndividualExposure) :
    ((appendToPages ps pages others).map (fun p => p.others.length)).sum =
      (pages.map (fun p => p.others.length)).sum + others.length := by
  rcases List.eq_nil_or_concat pages with rfl | ⟨init, last, rfl⟩
  · rw [appendToPages_nil, chunk_pages_sum_length]
    simp
  · rw [List.concat_eq_append, appendToPages_concat]
    simp only [List.map_append, List.sum_append, List.map_cons, List.map_nil,
      List.sum_cons, List.sum_nil, List.length_append, chunk_pages_sum_length]
    have h1 := List.length_take (ps.max 1 - last.others.length) others
    have h2 := List.length_drop (ps.max 1 - last.others.length) others
    omega

theorem appendToPages_sum_pts (ps : Nat) (pages : List ExposurePage)
    (others : List IndividualExposure) :
    ((appendToPages ps pages others).map (fun p => p.page_total)).sum =
      (pages.map (fun p => p.page_total)).sum + sumVals others := by
  rcases List.eq_nil_or_concat pages with rfl | ⟨init, last, rfl⟩
  · rw [appendToPages_nil, chunk_pages_sum_pts]
    simp
  · rw [List.concat_eq_append, appendToPages_concat]
    simp only [List.map_append, List.sum_append, List.map_cons, List.map_nil,
      List.sum_cons, List.sum_nil, chunk_pages_sum_pts]
    have h3 : sumVals (others.take (ps.max 1 - last.others.length)) +
        sumVals (others.drop (ps.max 1 - last.others.length)) = sumVals others := by
      rw [← sumVals_append, List.take_append_drop]
    omega

theorem pagesWF_tail (d : Nat) (p : ExposurePage) (rest : List ExposurePage)
    (hr : rest ≠ []) (h : pagesWF d (p :: rest)) : pagesWF d rest := by
  refine ⟨?_, ?_, ?_⟩
  · intro r hmem
    exact h.1 r (by
      rw [List.dropLast_cons_of_ne_nil hr]
      exact List.mem_cons_of_mem p hmem)
  · intro r hmem
    exact h.2.1 r (List.mem_cons_of_mem p hmem)
  · intro r hmem
    exact h.2.2 r (List.mem_cons_of_mem p hmem)

theorem pagesWF_length (d : Nat) (hd : 0 < d) :
    ∀ pages : List ExposurePage, pagesWF d pages →
      pages.length = ceilDiv ((pages.map (fun p => p.others.length)).sum) d
  | [], _ => by simp [ceilDiv_of_zero]
  | [p], h => by
    have hb := h.2.1 p (List.mem_cons_self p [])
    simp only [List.map_cons, List.map_nil, List.sum_cons, List.sum_nil,
      List.length_cons, List.length_nil, Nat.add_zero]
    rw [ceilDiv_one_le _ d hb.1 hb.2]
  | p :: q :: t, h => by
    have hp : p.others.length = d := by
      apply h.1 p
      rw [List.dropLast_cons_of_ne_nil (by simp)]
      exact List.mem_cons_self p _
    have ht : pagesWF d (q :: t) := pagesWF_tail d p (q :: t) (by simp) h
    have ih := pagesWF_length d hd (q :: t) ht
    simp only [List.map_cons, List.sum_cons, List.length_cons] at ih ⊢
    rw [hp, Nat.add_comm d _, ceilDiv_add_self _ d hd]
    omega

theorem appendToPages_WF (ps : Nat) (pages : List ExposurePage)
    (others : List IndividualExposure) (h : pagesWF (ps.max 1) pages) :
    pagesWF (ps.max 1) (appendToPages ps pages others) := by
  have hd : 0 < ps.max 1 := Nat.le_max_right ps 1
  rcases List.eq_nil_or_concat pages with rfl | ⟨init, last, rfl⟩
  · rw [appendToPages_nil]
    exact pagesWF_chunks ps others
  · rw [List.concat_eq_append] at h ⊢
    rw [appendToPages_concat]
    have hlastmem : last ∈ init ++ [last] := by simp
    have hlast := h.2.1 last hlastmem
    have hlastpt := h.2.2 last hlastmem
    have hinitfull : ∀ p ∈ init, p.others.length = ps.max 1 := by
      intro p hp
      exact h.1 p (by rw [List.dropLast_concat]; exact hp)
    refine ⟨?_, ?_, ?_⟩
    · -- every page except the last is full
      by_cases hrest : others.drop (ps.max 1 - last.others.length) = []
      · rw [hrest, chunksOf_nil]
        simp only [List.map_nil, List.append_nil, List.dropLast_concat]
        exact hinitfull
      · have hne : (chunksOf ps (others.drop (ps.max 1 - last.others.length))).map
            pageOfChunk ≠ [] := by
          simp only [Ne, List.map_eq_nil_iff, chunksOf_eq_nil_iff]
          exact hrest
        rw [List.dropLast_append_of_ne_nil _ hne]
        intro p hp
        rcases List.mem_append.mp hp with hp | hp
        · rcases List.mem_append.mp hp with hp | hp
          · exact hinitfull p hp
          · -- p is the refilled last page, which is exactly full since the
            -- remaining nominators spilled over to fresh pages
            have hfill : (others.take (ps.max 1 - last.others.length)).length =
                ps.max 1 - last.others.length := by
              have hlen : ps.max 1 - last.others.length ≤ others.length := by
                by_contra hcon
                exact hrest (List.drop_eq_nil_iff_le.mpr (by omega))
              rw [List.length_take]
              omega
            rcases List.mem_singleton.mp hp with rfl
            simp only [List.length_append]
            rw [hfill]
            omega
        · exact (pagesWF_chunks ps _).1 p hp
    · -- every page is nonempty and within bound
      intro p hp
      rcases List.mem_append.mp hp with hp | hp
      · rcases List.mem_append.mp hp with hp | hp
        · exact h.2.1 p (List.mem_append.mpr (Or.inl hp))
        · rcases List.mem_singleton.mp hp with rfl
          simp only [List.length_append, List.length_take]
          omega
      · exact (pagesWF_chunks ps _).2.1 p hp
    · -- every page total is the sum of its nominators
      intro p hp
      rcases List.mem_append.mp hp with hp | hp
      · rcases List.mem_append.mp hp with hp | hp
        · exact h.2.2 p (List.mem_append.mpr (Or.inl hp))
        · rcases List.mem_singleton.mp hp with rfl
          simp only
          rw [hlastpt, ← sumVals_append]
      · exact (pagesWF_chunks ps _).2.2 p hp

theorem veeWF_empty (ps : Nat) : veeWF ps emptyVEE := by
  unfold veeWF emptyVEE
  simp

theorem veeWF_upsert (ps : Nat) (e : Exposure) (st : ValidatorEraExposure)
    (h : veeWF ps st) : veeWF ps (upsertExposure ps e st) := by
  have hd : 0 < ps.max 1 := Nat.le_max_right ps 1
  unfold veeWF at h
  cases hov : st.overview with
  | none =>
    unfold upsertExposure
    rw [hov]
    unfold veeWF intoPages
    simp only
    refine ⟨pagesWF_chunks ps e.others, (chunk_pages_sum_length ps e.others).symm, ?_⟩
    rw [List.length_map]
  | some m =>
    rw [hov] at h
    obtain ⟨hWF, hnc, _⟩ := h
    unfold upsertExposure
    rw [hov]
    unfold veeWF updateMetadata
    simp only
    have hWF' := appendToPages_WF ps st.pages e.others hWF
    refine ⟨hWF', ?_, ?_⟩
    · rw [appendToPages_sum_lens, hnc]
    · rw [pagesWF_length (ps.max 1) hd _ hWF', appendToPages_sum_lens, hnc]

theorem veeWF_foldl (ps : Nat) :
    ∀ (es : List Exposure) (st : ValidatorEraExposure), veeWF ps st →
      veeWF ps (es.foldl (fun s e => upsertExposure ps e s) st)
  | [], _, h => h
  | e :: es, st, h => by
    rw [List.foldl_cons]
    exact veeWF_foldl ps es _ (veeWF_upsert ps e st h)

theorem veeWF_upsertSeq (ps : Nat) (es : List Exposure) :
    veeWF ps (upsertSeq ps es) :=
  veeWF_foldl ps es emptyVEE (veeWF_empty ps)

theorem overview_upsert_isSome (ps : Nat) (e : Exposure) (st : ValidatorEraExposure) :
    (upsertExposure ps e st).overview.isSome := by
  unfold upsertExposure
  cases st.overview <;> simp

theorem overview_foldl_isSome (ps : Nat) :
    ∀ (es : List Exposure) (st : ValidatorEraExposure), st.overview.isSome →
      (es.foldl (fun s e => upsertExposure ps e s) st).overview.isSome
  | [], _, h => h
  | e :: es, st, _ => by
    rw [List.foldl_cons]
    exact overview_foldl_isSome ps es _ (overview_upsert_isSome ps e st)

theorem upsertSeq_overview_isSome (ps : Nat) (e : Exposure) (es : List Exposure) :
    (upsertSeq ps (e :: es)).overview.isSome := by
  unfold upsertSeq
  rw [List.foldl_cons]
  exact overview_foldl_isSome ps es _ (overview_upsert_isSome ps e emptyVEE)

theorem ncOf_upsert (ps : Nat) (e : Exposure) (st : ValidatorEraExposure) :
    ncOf (upsertExposure ps e st) = ncOf st + e.others.length := by
  unfold ncOf upsertExposure
  cases st.overview with
  | none => simp [intoPages]
  | some m => simp [updateMetadata]

theorem ncOf_foldl (ps : Nat) :
    ∀ (es : List Exposure) (st : ValidatorEraExposure),
      ncOf (es.foldl (fun s e => upsertExposure ps e s) st) =
        ncOf st + (es.map (fun e => e.others.length)).sum
  | [], _ => by simp
  | e :: es, st => by
    rw [List.foldl_cons, ncOf_foldl ps es _, ncOf_upsert]
    simp only [List.map_cons, List.sum_cons]
    omega

theorem ncOf_upsertSeq (ps : Nat) (es : List Exposure) :
    ncOf (upsertSeq ps es) = (es.map (fun e => e.others.length)).sum := by
  unfold upsertSeq
  rw [ncOf_foldl]
  simp [ncOf, emptyVEE]

theorem ptSum_upsert (ps : Nat) (e : Exposure) (st : ValidatorEraExposure)
    (h : st.overview = none → st.pages = []) :
    ptSum (upsertExposure ps e st) = ptSum st + sumVals e.others := by
  unfold ptSum upsertExposure
  cases hov : st.overview with
  | none =>
    simp only [intoPages, h hov, List.map_nil, List.sum_nil]
    rw [chunk_pages_sum_pts]
    omega
  | some m =>
    simp only
    rw [appendToPages_sum_pts]

theorem ownOf_totalOf_foldl (ps w : Nat) :
    ∀ (es : List Exposure) (st : ValidatorEraExposure),
      (∀ e ∈ es, e.own = w ∧ e.total = w + sumVals e.others) →
      st.overview.isSome → ownOf st = w →
      ownOf (es.foldl (fun s e => upsertExposure ps e s) st) = w ∧
      totalOf (es.foldl (fun s e => upsertExposure ps e s) st) =
        totalOf st + (es.map (fun e => sumVals e.others)).sum
  | [], st, _, _, hw => by
    refine ⟨hw, ?_⟩
    simp
  | e :: es, st, hes, hsome, hw => by
    rw [List.foldl_cons]
    obtain ⟨m, hm⟩ := Option.isSome_iff_exists.mp hsome
    have hstep_own : ownOf (upsertExposure ps e st) = w := by
      unfold ownOf at hw ⊢
      unfold upsertExposure
      rw [hm] at hw ⊢
      simpa [updateMetadata] using hw
    have hstep_total : totalOf (upsertExposure ps e st) =
        totalOf st + sumVals e.others := by
      have he := hes e (List.mem_cons_self e es)
      unfold totalOf upsertExposure
      rw [hm]
      simp only [updateMetadata]
      rw [he.2, he.1]
      omega
    have hrec := ownOf_totalOf_foldl ps w es (upsertExposure ps e st)
      (fun x hx => hes x (List.mem_cons_of_mem e hx))
      (overview_upsert_isSome ps e st) hstep_own
    refine ⟨hrec.1, ?_⟩
    rw [hrec.2, hstep_total]
    simp only [List.map_cons, List.sum_cons]
    omega

theorem upsertSeq_own_total (ps w : Nat) (e : Exposure) (es : List Exposure)
    (hes : ∀ x ∈ e :: es, x.own = w ∧ x.total = w + sumVals x.others) :
    ownOf (upsertSeq ps (e :: es)) = w ∧
    totalOf (upsertSeq ps (e :: es)) =
      w + ((e :: es).map (fun x => sumVals x.others)).sum := by
  unfold upsertSeq
  rw [List.foldl_cons]
  have he := hes e (List.mem_cons_self e es)
  have hfirst_own : ownOf (upsertExposure ps e emptyVEE) = w := by
    unfold ownOf upsertExposure emptyVEE
    simp [intoPages, he.1]
  have hfirst_total : totalOf (upsertExposure ps e emptyVEE) = w + sumVals e.others := by
    unfold totalOf upsertExposure emptyVEE
    simp [intoPages, he.2]
  have hrec := ownOf_totalOf_foldl ps w es (upsertExposure ps e emptyVEE)
    (fun x hx => hes x (List.mem_cons_of_mem e hx))
    (overview_upsert_isSome ps e emptyVEE) hfirst_own
  refine ⟨hrec.1, ?_⟩
  rw [hrec.2, hfirst_total]
  simp only [List.map_cons, List.sum_cons]
  omega

theorem alookup_aupsert {α β : Type} [DecidableEq α] (d : β) (k : α) (f : β → β) :
    ∀ (st : List (α × β)) (v : α),
      alookup (aupsert d k f st) v =
        if v = k then some (f ((alookup st v).getD d)) else alookup st v
  | [], v => by
    unfold aupsert alookup
    by_cases h : v = k <;> simp [h, alookup]
  | (k', x) :: rest, v => by
    unfold aupsert
    by_cases hk : k = k'
    · subst hk
      unfold alookup
      by_cases hv : v = k <;> simp [hv]
    · rw [if_neg hk]
      unfold alookup
      by_cases hv : v = k'
      · subst hv
        rw [if_pos rfl, if_pos rfl, if_neg (fun h => hk h.symm)]
      · rw [if_neg hv, if_neg hv, alookup_aupsert d k f rest v]

theorem alookup_store_call (ps : Nat) :
    ∀ (entries : List (Nat × Exposure)) (st : ExposureStore) (v : Nat),
      alookup (entries.foldl
          (fun acc p => aupsert emptyVEE p.1 (upsertExposure ps p.2) acc) st) v =
        ((entries.filter (fun p => p.1 = v)).map (fun p => p.2)).foldl
          (fun r e => upsertO ps e r) (alookup st v)
  | [], st, v => by simp
  | (k, e) :: rest, st, v => by
    rw [List.foldl_cons]
    rw [alookup_store_call ps rest _ v]
    rw [alookup_aupsert]
    by_cases hv : k = v
    · subst hv
      rw [if_pos rfl]
      simp only [List.filter_cons]
      rw [if_pos (by simp)]
      simp only [List.map_cons, List.foldl_cons]
      rfl
    · rw [if_neg (fun h => hv h.symm)]
      simp only [List.filter_cons]
      rw [if_neg (by simp [hv])]

theorem alookup_storeSeq (ps : Nat) :
    ∀ (calls : List (List (Nat × Exposure))) (st : ExposureStore) (v : Nat),
      alookup (storeSeq ps calls st) v =
        (mentionsOf v calls).foldl (fun r e => upsertO ps e r) (alookup st v)
  | [], st, v => by simp [storeSeq, mentionsOf]
  | c :: cs, st, v => by
    unfold storeSeq
    rw [List.foldl_cons]
    have h1 : (storeStakersInfo ps c st).1 =
        c.foldl (fun acc p => aupsert emptyVEE p.1 (upsertExposure ps p.2) acc) st := rfl
    rw [h1]
    have h2 := alookup_storeSeq ps cs
      (c.foldl (fun acc p => aupsert emptyVEE p.1 (upsertExposure ps p.2) acc) st) v
    unfold storeSeq at h2
    rw [h2, alookup_store_call ps c st v]
    unfold mentionsOf
    rw [List.flatMap_cons, List.map_append, List.foldl_append]

theorem foldl_upsertO_some (ps : Nat) :
    ∀ (es : List Exposure) (s : ValidatorEraExposure),
      es.foldl (fun r e => upsertO ps e r) (some s) =
        some (es.foldl (fun t e => upsertExposure ps e t) s)
  | [], _ => rfl
  | e :: es, s => by
    rw [List.foldl_cons, List.foldl_cons]
    exact foldl_upsertO_some ps es (upsertExposure ps e s)

theorem foldl_upsertO_cons (ps : Nat) (e : Exposure) (es : List Exposure) :
    (e :: es).foldl (fun r x => upsertO ps x r) none =
      some (upsertSeq ps (e :: es)) := by
  rw [List.foldl_cons]
  unfold upsertSeq
  rw [List.foldl_cons]
  exact foldl_upsertO_some ps es (upsertExposure ps e emptyVEE)

theorem addElectables_spec :
    ∀ (xs st : List Nat) (maxV : Nat), st.length ≤ maxV →
      (addElectables maxV st xs).1.length ≤ maxV ∧
      ((addElectables maxV st xs).2 = true ↔ maxV < (unionS xs st).length) ∧
      ((addElectables maxV st xs).2 = true → (addElectables maxV st xs).1.length = maxV) ∧
      (∀ y ∈ st, y ∈ (addElectables maxV st xs).1)
  | [], st, maxV, h => by
    unfold addElectables
    refine ⟨h, ?_, by simp, fun y hy => hy⟩
    rw [unionS_nil]
    simp only [Bool.false_eq_true, false_iff]
    omega
  | x :: xs, st, maxV, h => by
    unfold addElectables
    rw [unionS_cons]
    by_cases hx : x ∈ st
    · simp only [if_pos hx]
      exact addElectables_spec xs st maxV h
    · simp only [if_neg hx]
      by_cases hlen : st.length < maxV
      · simp only [if_pos hlen]
        have ih := addElectables_spec xs (insertSorted x st) maxV
          (by rw [length_insertSorted]; omega)
        exact ⟨ih.1, ih.2.1, ih.2.2.1,
          fun y hy => ih.2.2.2 y ((mem_insertSorted x y st).mpr (Or.inr hy))⟩
      · simp only [if_neg hlen]
        refine ⟨h, ?_, fun _ => by omega, fun y hy => hy⟩
        simp only [true_iff]
        have h1 := length_le_unionS xs (insertSorted x st)
        rw [length_insertSorted] at h1
        omega

theorem addElectables_mem :
    ∀ (xs st : List Nat) (maxV : Nat), xs.Nodup → (∀ x ∈ xs, x ∉ st) →
      st.length ≤ maxV →
      ∀ v, v ∈ (addElectables maxV st xs).1 ↔
        v ∈ st ∨ v ∈ xs.take (maxV - st.length)
  | [], st, maxV, _, _, _, v => by
    unfold addElectables
    simp
  | x :: xs, st, maxV, hnd, hdis, h, v => by
    unfold addElectables
    have hx : x ∉ st := hdis x (List.mem_cons_self x xs)
    rw [if_neg hx]
    by_cases hlen : st.length < maxV
    · rw [if_pos hlen]
      have hdis' : ∀ y ∈ xs, y ∉ insertSorted x st := by
        intro y hy hmem
        rcases (mem_insertSorted x y st).mp hmem with he | hs
        · exact (List.nodup_cons.mp hnd).1 (he ▸ hy)
        · exact hdis y (List.mem_cons_of_mem x hy) hs
      have ih := addElectables_mem xs (insertSorted x st) maxV
        (List.nodup_cons.mp hnd).2 hdis'
        (by rw [length_insertSorted]; omega) v
      rw [ih, mem_insertSorted, length_insertSorted]
      have htake : (x :: xs).take (maxV - st.length) =
          x :: xs.take (maxV - (st.length + 1)) := by
        rw [show maxV - st.length = (maxV - (st.length + 1)) + 1 by omega,
          List.take_succ_cons]
      rw [htake]
      simp only [List.mem_cons]
      tauto
    · rw [if_neg hlen]
      have h0 : maxV - st.length = 0 := by omega
      rw [h0]
      simp

/-- C1 counterexample: with exposure page size 2, a single (N = 1) call to
`store_stakers_info` mentioning validator 1 in era 0 (the first call of
`store_stakers_info_elect_works`) leaves `page_count = 2` — not `N = 1` —
and creates page indices 0 and 1, not just page index `N - 1 = 0`. -/
theorem store_stakers_info_page_count_cex :
    alookup (storeSeq 2 [[(1, exposureOne), (2, exposureTwo)]] []) 1 =
      some ⟨some ⟨1700, 1000, 3, 2⟩,
        [⟨600, [⟨101, 500⟩, ⟨102, 100⟩]⟩, ⟨100, [⟨103, 100⟩]⟩]⟩ ∧
    (2 : Nat) ≠ 1 := by decide

/-- C1 (amended): for every sequence of `store_stakers_info` calls mentioning
validator `v` in an era, the stored `page_count` equals the number of pages
needed for all nominators passed for `v` across the calls — the ceiling of
(total nominator count) / `MaxExposurePageSize` — and exactly that many pages
are stored, at consecutive indices starting from 0. -/
theorem store_stakers_info_page_count (ps : Nat)
    (calls : List (List (Nat × Exposure))) (v : Nat)
    (hps : 0 < ps) (hne : mentionsOf v calls ≠ []) :
    ∃ vee m, alookup (storeSeq ps calls []) v = some vee ∧
      vee.overview = some m ∧
      m.page_count =
        ceilDiv (((mentionsOf v calls).map (fun e => e.others.length)).sum) ps ∧
      vee.pages.length = m.page_count := by
  have hmax : ps.max 1 = ps := Nat.max_eq_left hps
  obtain ⟨e, es, hmem⟩ : ∃ e es, mentionsOf v calls = e :: es := by
    cases h : mentionsOf v calls with
    | nil => exact absurd h hne
    | cons e es => exact ⟨e, es, rfl⟩
  rw [alookup_storeSeq, hmem]
  have halook : alookup ([] : ExposureStore) v = none := rfl
  rw [halook, foldl_upsertO_cons]
  refine ⟨upsertSeq ps (e :: es), ?_⟩
  have hWF := veeWF_upsertSeq ps (e :: es)
  obtain ⟨m, hm⟩ := Option.isSome_iff_exists.mp (upsertSeq_overview_isSome ps e es)
  unfold veeWF at hWF
  rw [hm] at hWF
  obtain ⟨hpWF, hnc, hpc⟩ := hWF
  have hnc2 : m.nominator_count = ((e :: es).map (fun x => x.others.length)).sum := by
    have h0 := ncOf_upsertSeq ps (e :: es)
    unfold ncOf at h0
    rw [hm] at h0
    exact h0
  refine ⟨m, rfl, hm, ?_, hpc.symm⟩
  rw [hpc, pagesWF_length (ps.max 1) (by omega) _ hpWF, hmax, ← hnc, hnc2]

/-- Witness for the amended C1 theorem at the two calls of
`store_stakers_info_elect_works` that mention validator 1. -/
theorem store_stakers_info_page_count_witness :
    ∃ vee m,
      alookup (storeSeq 2 [[(1, exposureOne)], [(1, exposureThree)]] []) 1 =
        some vee ∧
      vee.overview = some m ∧
      m.page_count =
        ceilDiv (((mentionsOf 1 [[(1, exposureOne)], [(1, exposureThree)]]).map
          (fun e => e.others.length)).sum) 2 ∧
      vee.pages.length = m.page_count :=
  store_stakers_info_page_count 2 [[(1, exposureOne)], [(1, exposureThree)]] 1
    (by decide) (by decide)

/-- C6 counterexample: across the two `store_stakers_info` calls of
`store_stakers_info_elect_works` that mention validator 1, the stored `total`
is 2200 (own 1000 plus the 1200 of nominator stake), while the sum of the
passed `total` values is 1700 + 1500 = 3200, so "total equals the sum of all
page.total values passed" fails for more than one call. -/
theorem store_stakers_info_total_cex :
    (getFullExposure (storeSeq 2 [[(1, exposureOne), (2, exposureTwo)],
      [(1, exposureThree)]] []) 1).total = 2200 ∧
    exposureOne.total + exposureThree.total = 3200 ∧
    (2200 : Nat) ≠ 3200 := by decide

/-- C6 (amended): for every sequence of `store_stakers_info` calls passing
well-formed exposures with own stake `w` for validator `v`, the stored
`total` equals `w` plus the sum of all nominator stake passed (equivalently,
`w` plus the sum of the stored pages' `page_total` values), `nominator_count`
equals the number of nominator entries passed, each stored page's
`page_total` is the sum of only that page's nominator values, and
`page_count` is the number of pages needed at the configured page size
(so page size 2 with 5 nominators in total yields `page_count = 3`). -/
theorem store_stakers_info_totals (ps : Nat)
    (calls : List (List (Nat × Exposure))) (v w : Nat)
    (hps : 0 < ps) (hne : mentionsOf v calls ≠ [])
    (hw : ∀ e ∈ mentionsOf v calls, e.own = w ∧ e.total = w + sumVals e.others) :
    ∃ vee m, alookup (storeSeq ps calls []) v = some vee ∧
      vee.overview = some m ∧
      m.own = w ∧
      m.total = w + ((mentionsOf v calls).map (fun e => sumVals e.others)).sum ∧
      m.total = w + (vee.pages.map (fun p => p.page_total)).sum ∧
      m.nominator_count =
        ((mentionsOf v calls).map (fun e => e.others.length)).sum ∧
      (∀ p ∈ vee.pages, p.page_total = sumVals p.others) ∧
      m.page_count = ceilDiv m.nominator_count ps := by
  have hmax : ps.max 1 = ps := Nat.max_eq_left hps
  obtain ⟨e, es, hmem⟩ : ∃ e es, mentionsOf v calls = e :: es := by
    cases h : mentionsOf v calls with
    | nil => exact absurd h hne
    | cons e es => exact ⟨e, es, rfl⟩
  rw [alookup_storeSeq, hmem]
  have halook : alookup ([] : ExposureStore) v = none := rfl
  rw [halook, foldl_upsertO_cons]
  refine ⟨upsertSeq ps (e :: es), ?_⟩
  have hWF := veeWF_upsertSeq ps (e :: es)
  obtain ⟨m, hm⟩ := Option.isSome_iff_exists.mp (upsertSeq_overview_isSome ps e es)
  unfold veeWF at hWF
  rw [hm] at hWF
  obtain ⟨hpWF, hnc, hpc⟩ := hWF
  have hnc2 : m.nominator_count = ((e :: es).map (fun x => x.others.length)).sum := by
    have h0 := ncOf_upsertSeq ps (e :: es)
    unfold ncOf at h0
    rw [hm] at h0
    exact h0
  rw [hmem] at hw
  have hot0 := upsertSeq_own_total ps w e es hw
  unfold ownOf totalOf at hot0
  rw [hm] at hot0
  have hown : m.own = w := hot0.1
  have htot : m.total = w + ((e :: es).map (fun x => sumVals x.others)).sum := hot0.2
  have hpts : ptSum (upsertSeq ps (e :: es)) =
      ((e :: es).map (fun x => sumVals x.others)).sum := by
    have hfold : ∀ (l : List Exposure) (st : ValidatorEraExposure), veeWF ps st →
        ptSum (l.foldl (fun s x => upsertExposure ps x s) st) =
          ptSum st + (l.map (fun x => sumVals x.others)).sum := by
      intro l
      induction l with
      | nil => intro st _; simp
      | cons x xs ih =>
        intro st hst
        rw [List.foldl_cons, ih _ (veeWF_upsert ps x st hst), ptSum_upsert ps x st
          (by intro hov; unfold veeWF at hst; rw [hov] at hst; exact hst)]
        simp only [List.map_cons, List.sum_cons]
        omega
    have h0 := hfold (e :: es) emptyVEE (veeWF_empty ps)
    unfold upsertSeq
    rw [h0]
    simp [ptSum, emptyVEE]
  refine ⟨m, rfl, hm, hown, htot, ?_, hnc2, hpWF.2.2, ?_⟩
  · rw [htot, ← hpts]
    rfl
  · rw [hpc, pagesWF_length (ps.max 1) (by omega) _ hpWF, hmax, hnc]

/-- Witness for the amended C6 theorem at the calls of
`store_stakers_info_elect_works` mentioning validator 1 (own stake 1000). -/
theorem store_stakers_info_totals_witness :
    ∃ vee m,
      alookup (storeSeq 2 [[(1, exposureOne), (2, exposureTwo)],
        [(1, exposureThree)]] []) 1 = some vee ∧
      vee.overview = some m ∧
      m.own = 1000 ∧
      m.total = 1000 + ((mentionsOf 1 [[(1, exposureOne), (2, exposureTwo)],
        [(1, exposureThree)]]).map (fun e => sumVals e.others)).sum ∧
      m.total = 1000 + (vee.pages.map (fun p => p.page_total)).sum ∧
      m.nominator_count = ((mentionsOf 1 [[(1, exposureOne), (2, exposureTwo)],
        [(1, exposureThree)]]).map (fun e => e.others.length)).sum ∧
      (∀ p ∈ vee.pages, p.page_total = sumVals p.others) ∧
      m.page_count = ceilDiv m.nominator_count 2 :=
  store_stakers_info_totals 2 [[(1, exposureOne), (2, exposureTwo)],
    [(1, exposureThree)]] 1 1000 (by decide) (by decide) (by decide)

/-- C9: after every sequence of `store_stakers_info` calls, every stored
exposure page of a validator except the highest-indexed one contains exactly
`MaxExposurePageSize` nominator entries — later calls fill the last partial
page before creating new page indices. -/
theorem exposure_pages_full (ps : Nat) (calls : List (List (Nat × Exposure)))
    (v : Nat) (vee : ValidatorEraExposure) (hps : 0 < ps)
    (h : alookup (storeSeq ps calls []) v = some vee) :
    ∀ p ∈ vee.pages.dropLast, p.others.length = ps := by
  have hmax : ps.max 1 = ps := Nat.max_eq_left hps
  rw [alookup_storeSeq] at h
  have halook : alookup ([] : ExposureStore) v = none := rfl
  rw [halook] at h
  cases hmem : mentionsOf v calls with
  | nil =>
    rw [hmem] at h
    simp at h
  | cons e es =>
    rw [hmem, foldl_upsertO_cons] at h
    cases h
    have hWF := veeWF_upsertSeq ps (e :: es)
    obtain ⟨m, hm⟩ := Option.isSome_iff_exists.mp (upsertSeq_overview_isSome ps e es)
    unfold veeWF at hWF
    rw [hm] at hWF
    intro p hp
    rw [← hmax]
    exact hWF.1.1 p hp

/-- Witness for C9 at the stored state of `store_stakers_info_elect_works`:
page 0 of validator 1 (a non-final page) holds exactly 2 nominators. -/
theorem exposure_pages_full_witness :
    (ExposurePage.mk 600 [⟨101, 500⟩, ⟨102, 100⟩]).others.length = 2 :=
  exposure_pages_full 2
    [[(1, exposureOne), (2, exposureTwo)], [(1, exposureThree)]] 1
    ⟨some ⟨2200, 1000, 5, 3⟩,
      [⟨600, [⟨101, 500⟩, ⟨102, 100⟩]⟩, ⟨350, [⟨103, 100⟩, ⟨110, 250⟩]⟩,
        ⟨250, [⟨111, 250⟩]⟩]⟩
    (by decide) (by decide) ⟨600, [⟨101, 500⟩, ⟨102, 100⟩]⟩ (by decide)

/-- C2: `add_electables` never lets `ElectableStashes` exceed
`MaxValidatorSet`: from any within-bound state, the result stays within the
bound, the call errs exactly when the deduplicated union would exceed the
bound, an erring call leaves the set filled to capacity, already-inserted
elements are never rolled back, and concretely with `MaxValidatorSet = 5`
adding `[1,2,3,4,5,6]` to the empty set yields `{1,2,3,4,5}` and an error. -/
theorem add_electables_capacity (maxV : Nat) (st xs : List Nat)
    (h : st.length ≤ maxV) :
    (addElectables maxV st xs).1.length ≤ maxV ∧
    ((addElectables maxV st xs).2 = true ↔ maxV < (unionS xs st).length) ∧
    ((addElectables maxV st xs).2 = true →
      (addElectables maxV st xs).1.length = maxV) ∧
    (∀ y ∈ st, y ∈ (addElectables maxV st xs).1) ∧
    addElectables 5 [] [1, 2, 3, 4, 5, 6] = ([1, 2, 3, 4, 5], true) := by
  have hs := addElectables_spec xs st maxV h
  exact ⟨hs.1, hs.2.1, hs.2.2.1, hs.2.2.2, by decide⟩

/-- Witness for C2 at the overflow scenario of
`add_electable_stashes_overflow_works`. -/
theorem add_electables_capacity_witness :
    (addElectables 5 [] [1, 2, 3, 4, 5, 6]).1.length ≤ 5 ∧
    addElectables 5 [] [1, 2, 3, 4, 5, 6] = ([1, 2, 3, 4, 5], true) :=
  ⟨(add_electables_capacity 5 [] [1, 2, 3, 4, 5, 6] (by decide)).1,
   (add_electables_capacity 5 [] [1, 2, 3, 4, 5, 6] (by decide)).2.2.2.2⟩

/-- C3: `ensure_snapshot_metadata_state` succeeds if and only if: an unset
`ElectingStartedAt` comes with an empty `ElectableStashes`; a set
`ElectingStartedAt` comes with at least one exposure page recorded for every
electable stash; and a set `ElectingStartedAt` equals the block at which
election preparation was scheduled to start. -/
theorem ensure_snapshot_metadata_state_iff (now startBlock : Nat)
    (st : MetaState) :
    ensureSnapshotMetadataState now startBlock st = Except.ok () ↔
      ((st.electingStartedAt = none → st.electableStashes = []) ∧
       (∀ b, st.electingStartedAt = some b →
          (∀ s ∈ st.electableStashes, 0 < st.upcomingPageCount s) ∧
          b = startBlock)) := by
  unfold ensureSnapshotMetadataState
  split
  next hov =>
    rw [hov]
    by_cases he : st.electableStashes.isEmpty
    · rw [if_pos he]
      rw [List.isEmpty_iff] at he
      constructor
      · intro _
        exact ⟨fun _ => he, fun b hb => by cases hb⟩
      · intro _
        rfl
    · rw [if_neg he]
      rw [List.isEmpty_iff] at he
      constructor
      · intro h
        by_cases hn : startBlock ≤ now
        · rw [if_pos hn] at h
          exact Except.noConfusion h
        · rw [if_neg hn] at h
          exact Except.noConfusion h
      · rintro ⟨h1, _⟩
        exact absurd (h1 rfl) he
  next b hov =>
    rw [hov]
    by_cases hb : b = startBlock
    · rw [if_pos hb]
      by_cases hall :
          st.electableStashes.all (fun s => decide (0 < st.upcomingPageCount s)) = true
      · rw [if_pos hall]
        rw [List.all_eq_true] at hall
        constructor
        · intro _
          refine ⟨(fun h => by cases h), fun b' hb' => ?_⟩
          cases hb'
          refine ⟨fun s hs => ?_, hb⟩
          exact of_decide_eq_true (hall s hs)
        · intro _
          rfl
      · rw [if_neg hall]
        constructor
        · intro h
          exact Except.noConfusion h
        · rintro ⟨_, h2⟩
          refine absurd ?_ hall
          rw [List.all_eq_true]
          intro s hs
          exact decide_eq_true ((h2 b rfl).1 s hs)
    · rw [if_neg hb]
      constructor
      · intro h
        by_cases hn : now < startBlock
        · rw [if_pos hn] at h
          exact Except.noConfusion h
        · rw [if_neg hn] at h
          exact Except.noConfusion h
      · rintro ⟨_, h2⟩
        exact absurd (h2 b rfl).2 hb

/-- Witness for C3 at the healthy prep-start state of
`try_state_failure_works` (block 9, `ElectingStartedAt = Some(9)`, stashes
with one exposure page each). -/
theorem ensure_snapshot_metadata_state_iff_witness :
    ensureSnapshotMetadataState 9 9
      ⟨some 9, [11, 21], fun _ => 1⟩ = Except.ok () :=
  (ensure_snapshot_metadata_state_iff 9 9 ⟨some 9, [11, 21], fun _ => 1⟩).mpr
    ⟨(fun h => by cases h), fun b hb => by cases hb; exact ⟨fun s _ => Nat.one_pos, rfl⟩⟩

theorem applyQueued_none (st : ChainState) (h : st.queuedValidators = none) :
    applyQueued st = st := by
  unfold applyQueued
  split
  next q heq => rw [heq] at h; cases h
  next => rfl

theorem applyQueued_some (st : ChainState) (q : List Nat)
    (h : st.queuedValidators = some q) :
    applyQueued st = { st with sessionValidators := q, queuedValidators := none } := by
  unfold applyQueued
  split
  next q' heq =>
    rw [h] at heq
    cases heq
    rfl
  next heq => rw [h] at heq; cases heq

theorem runTo_pre (E pages : Nat) (elected genesis : List Nat) :
    ∀ b, b < E - pages → runTo E pages elected genesis b = initChain genesis
  | 0, _ => rfl
  | b + 1, h => by
    show onInit E pages elected (b + 1) (runTo E pages elected genesis b) = _
    rw [runTo_pre E pages elected genesis b (by omega)]
    simp only [onInit]
    rw [applyQueued_none (initChain genesis) rfl]
    rw [if_neg (by omega : ¬(b + 1 = E)),
      if_neg (by omega : ¬(E - pages ≤ b + 1 ∧ b + 1 < E))]

theorem runTo_start (E pages : Nat) (elected genesis : List Nat)
    (hp : 0 < pages) (hE : pages < E) :
    runTo E pages elected genesis (E - pages) =
      { initChain genesis with
        electingStartedAt := some (E - pages)
        electableStashes := unionS elected [] } := by
  obtain ⟨k, hk⟩ : ∃ k, E - pages = k + 1 := ⟨E - pages - 1, by omega⟩
  rw [hk]
  show onInit E pages elected (k + 1) (runTo E pages elected genesis k) = _
  rw [runTo_pre E pages elected genesis k (by omega)]
  simp only [onInit]
  rw [applyQueued_none (initChain genesis) rfl]
  rw [if_neg (by omega : ¬(k + 1 = E)),
    if_pos (show E - pages ≤ k + 1 ∧ k + 1 < E by omega)]
  simp [initChain, hk]

theorem runTo_window (E pages : Nat) (elected genesis : List Nat)
    (hp : 0 < pages) (hE : pages < E) :
    ∀ d, d < pages → runTo E pages elected genesis (E - pages + d) =
      { initChain genesis with
        electingStartedAt := some (E - pages)
        electableStashes := unionS elected [] }
  | 0, _ => by simpa using runTo_start E pages elected genesis hp hE
  | d + 1, hd => by
    have ih := runTo_window E pages elected genesis hp hE d (by omega)
    rw [show E - pages + (d + 1) = (E - pages + d) + 1 by omega]
    show onInit E pages elected ((E - pages + d) + 1) _ = _
    rw [ih]
    simp only [onInit]
    rw [applyQueued_none _ rfl]
    rw [if_neg (by omega : ¬(E - pages + d + 1 = E)),
      if_pos (show E - pages ≤ E - pages + d + 1 ∧ E - pages + d + 1 < E by omega)]
    have hidem : unionS elected (unionS elected []) = unionS elected [] :=
      unionS_eq_of_subset elected _ (fun x hx => mem_unionS_self x elected [] hx)
    simp [initChain, hidem]

theorem runTo_rotation (E pages : Nat) (elected genesis : List Nat)
    (hp : 0 < pages) (hE : pages < E) :
    runTo E pages elected genesis E =
      ⟨1, none, [], genesis, some (unionS elected [])⟩ := by
  obtain ⟨k, hk⟩ : ∃ k, E = k + 1 := ⟨E - 1, by omega⟩
  subst hk
  show onInit (k + 1) pages elected (k + 1) (runTo (k + 1) pages elected genesis k) = _
  have hw := runTo_window (k + 1) pages elected genesis hp hE (pages - 1) (by omega)
  rw [show k + 1 - pages + (pages - 1) = k by omega] at hw
  rw [hw]
  simp only [onInit]
  rw [applyQueued_none _ rfl]
  simp [initChain]

theorem runTo_after (E pages : Nat) (elected genesis : List Nat)
    (hp : 0 < pages) (hE : pages < E) :
    runTo E pages elected genesis (E + 1) =
      ⟨1, none, [], unionS elected [], none⟩ := by
  show onInit E pages elected (E + 1) (runTo E pages elected genesis E) = _
  rw [runTo_rotation E pages elected genesis hp hE]
  simp only [onInit]
  rw [applyQueued_some _ (unionS elected []) rfl]
  rw [if_neg (by omega : ¬(E + 1 = E)),
    if_neg (by omega : ¬(E - pages ≤ E + 1 ∧ E + 1 < E))]

/-- C4 counterexample: in the single-page scenario of
`single_page_election_works` (election block E = 10, 1 page, elected stashes
[11, 21], genesis validators [11, 21, 31]), at block E the election metadata
is cleared but the session validator set is still the old set [11, 21, 31]
rather than the elected stashes [11, 21] — the elected set only goes live at
the following session boundary. -/
theorem election_timeline_cex :
    (runTo 10 1 [11, 21] [11, 21, 31] 9).electableStashes = [11, 21] ∧
    (runTo 10 1 [11, 21] [11, 21, 31] 10).electingStartedAt = none ∧
    (runTo 10 1 [11, 21] [11, 21, 31] 10).electableStashes = [] ∧
    (runTo 10 1 [11, 21] [11, 21, 31] 10).sessionValidators = [11, 21, 31] ∧
    ([11, 21, 31] : List Nat) ≠ [11, 21] := by decide

/-- C4 (amended): with predicted election block `E` and `pages` election
pages, at every block up to `E - pages - 1` the election metadata is unset
and the electable-stash set empty; at block `E - pages` `ElectingStartedAt`
becomes `Some(E - pages)`; at block `E` the era rotates, clearing
`ElectingStartedAt` and `ElectableStashes` and handing the elected stashes to
the session layer, while the old validator set is still live at `E` itself;
the elected stashes are live as the session validator set from the following
session boundary. -/
theorem election_timeline (E pages : Nat) (elected genesis : List Nat) (b : Nat)
    (hp : 0 < pages) (hE : pages < E) :
    (b + pages + 1 ≤ E →
      (runTo E pages elected genesis b).electingStartedAt = none ∧
      (runTo E pages elected genesis b).electableStashes = [] ∧
      (runTo E pages elected genesis b).sessionValidators = genesis) ∧
    (runTo E pages elected genesis (E - pages)).electingStartedAt =
      some (E - pages) ∧
    (runTo E pages elected genesis E).electingStartedAt = none ∧
    (runTo E pages elected genesis E).electableStashes = [] ∧
    (runTo E pages elected genesis E).sessionValidators = genesis ∧
    (runTo E pages elected genesis E).queuedValidators =
      some (unionS elected []) ∧
    (runTo E pages elected genesis (E + 1)).sessionValidators =
      unionS elected [] := by
  refine ⟨fun hb => ?_, ?_, ?_, ?_, ?_, ?_, ?_⟩
  · rw [runTo_pre E pages elected genesis b (by omega)]
    exact ⟨rfl, rfl, rfl⟩
  · rw [runTo_start E pages elected genesis hp hE]
  · rw [runTo_rotation E pages elected genesis hp hE]
  · rw [runTo_rotation E pages elected genesis hp hE]
  · rw [runTo_rotation E pages elected genesis hp hE]
  · rw [runTo_rotation E pages elected genesis hp hE]
  · rw [runTo_after E pages elected genesis hp hE]

/-- Witness for the amended C4 theorem at the multi-page scenario of
`multi_page_election_works` (E = 10, 3 pages). -/
theorem election_timeline_witness :
    (runTo 10 3 [11, 21, 31, 61, 71] [11, 21] (10 - 3)).electingStartedAt =
      some (10 - 3) ∧
    (runTo 10 3 [11, 21, 31, 61, 71] [11, 21] 10).sessionValidators = [11, 21] ∧
    (runTo 10 3 [11, 21, 31, 61, 71] [11, 21] (10 + 1)).sessionValidators =
      unionS [11, 21, 31, 61, 71] [] :=
  ⟨(election_timeline 10 3 [11, 21, 31, 61, 71] [11, 21] 0 (by decide)
      (by decide)).2.1,
   (election_timeline 10 3 [11, 21, 31, 61, 71] [11, 21] 0 (by decide)
      (by decide)).2.2.2.2.1,
   (election_timeline 10 3 [11, 21, 31, 61, 71] [11, 21] 0 (by decide)
      (by decide)).2.2.2.2.2.2⟩

theorem filter_key_nil {β : Type} :
    ∀ (entries : List (Nat × β)) (v : Nat), v ∉ entries.map Prod.fst →
      entries.filter (fun p => p.1 = v) = []
  | [], _, _ => rfl
  | (k, x) :: rest, v, h => by
    simp only [List.map_cons, List.mem_cons] at h
    push_neg at h
    simp only [List.filter_cons]
    rw [if_neg (by simp only [decide_eq_true_eq]; exact fun hh => h.1 hh.symm)]
    exact filter_key_nil rest v h.2

theorem filter_key_singleton {β : Type} :
    ∀ (entries : List (Nat × β)) (v : Nat) (e : β),
      (entries.map Prod.fst).Nodup → (v, e) ∈ entries →
      entries.filter (fun p => p.1 = v) = [(v, e)]
  | [], _, _, _, h => by cases h
  | (k, x) :: rest, v, e, hnd, hmem => by
    simp only [List.map_cons, List.nodup_cons] at hnd
    rcases List.mem_cons.mp hmem with heq | hmem'
    · injection heq with h1 h2
      subst h1
      subst h2
      simp only [List.filter_cons]
      rw [if_pos (by simp)]
      rw [filter_key_nil rest v hnd.1]
    · have hv : v ∈ rest.map Prod.fst := List.mem_map.mpr ⟨(v, e), hmem', rfl⟩
      have hkv : k ≠ v := fun hh => hnd.1 (hh ▸ hv)
      simp only [List.filter_cons]
      rw [if_neg (by simp only [decide_eq_true_eq]; exact hkv)]
      exact filter_key_singleton rest v e hnd.2 hmem'

/-- C5: when `do_elect_paged_inner` receives more distinct winners than
`MaxValidatorSet` allows, it reports an error, `ElectableStashes` holds
exactly the winners that fit within the bound (the first `MaxValidatorSet`
of them), every retained winner has its exposure stored for the upcoming era
(its stored total being its support's total), and every dropped winner has
no exposure recorded — its `get_full_exposure` result is the default
exposure with total 0. -/
theorem do_elect_paged_inner_overflow (maxV ps : Nat)
    (supports : List (Nat × Support))
    (hnd : (supports.map (fun p => p.1)).Nodup)
    (hover : maxV < supports.length) :
    (doElectPagedInner maxV ps supports emptyElectState).2 = true ∧
    (∀ v, v ∈ (doElectPagedInner maxV ps supports emptyElectState).1.electable ↔
      v ∈ (supports.map (fun p => p.1)).take maxV) ∧
    (∀ q ∈ supports,
      q.1 ∈ (doElectPagedInner maxV ps supports emptyElectState).1.electable →
      (getFullExposure
        (doElectPagedInner maxV ps supports emptyElectState).1.exposures
        q.1).total = (collectExposure q.1 q.2).total) ∧
    (∀ q ∈ supports,
      q.1 ∉ (doElectPagedInner maxV ps supports emptyElectState).1.electable →
      getFullExposure
        (doElectPagedInner maxV ps supports emptyElectState).1.exposures q.1 =
        ⟨0, 0, []⟩) := by
  have hdis : ∀ x ∈ supports.map (fun p => p.1), x ∉ ([] : List Nat) := by simp
  have hspec := addElectables_spec (supports.map (fun p => p.1)) [] maxV (Nat.zero_le _)
  have hmemb := addElectables_mem (supports.map (fun p => p.1)) [] maxV hnd hdis
    (Nat.zero_le _)
  have h2 : (doElectPagedInner maxV ps supports emptyElectState).2 =
      (addElectables maxV [] (supports.map (fun p => p.1))).2 := rfl
  have hel : (doElectPagedInner maxV ps supports emptyElectState).1.electable =
      (addElectables maxV [] (supports.map (fun p => p.1))).1 := rfl
  have hex : (doElectPagedInner maxV ps supports emptyElectState).1.exposures =
      (storeStakersInfo ps
        ((supports.filter (fun p =>
            p.1 ∈ (addElectables maxV [] (supports.map (fun p => p.1))).1)).map
          (fun p => (p.1, collectExposure p.1 p.2))) []).1 := rfl
  have hndk : (((supports.filter (fun p =>
      p.1 ∈ (addElectables maxV [] (supports.map (fun p => p.1))).1)).map
        (fun p => (p.1, collectExposure p.1 p.2))).map Prod.fst).Nodup := by
    rw [List.map_map]
    exact List.Nodup.sublist ((List.filter_sublist supports).map _) hnd
  refine ⟨?_, ?_, ?_, ?_⟩
  · rw [h2]
    refine (hspec.2.1).mpr ?_
    rw [length_unionS_nodup _ _ hnd hdis]
    simpa using hover
  · intro v
    rw [hel, hmemb v]
    simp
  · intro q hq hqel
    rw [hel] at hqel
    rw [hex]
    have hqkept : q ∈ supports.filter (fun p =>
        p.1 ∈ (addElectables maxV [] (supports.map (fun p => p.1))).1) :=
      List.mem_filter.mpr ⟨hq, decide_eq_true hqel⟩
    have hqent : (q.1, collectExposure q.1 q.2) ∈
        (supports.filter (fun p =>
          p.1 ∈ (addElectables maxV [] (supports.map (fun p => p.1))).1)).map
          (fun p => (p.1, collectExposure p.1 p.2)) :=
      List.mem_map.mpr ⟨q, hqkept, rfl⟩
    have hfilter := filter_key_singleton _ q.1 (collectExposure q.1 q.2) hndk hqent
    have hlook := alookup_store_call ps
      ((supports.filter (fun p =>
          p.1 ∈ (addElectables maxV [] (supports.map (fun p => p.1))).1)).map
        (fun p => (p.1, collectExposure p.1 p.2))) [] q.1
    rw [hfilter] at hlook
    have hlook2 : alookup
        ((storeStakersInfo ps
          ((supports.filter (fun p =>
              p.1 ∈ (addElectables maxV [] (supports.map (fun p => p.1))).1)).map
            (fun p => (p.1, collectExposure p.1 p.2))) []).1) q.1 =
        some (upsertExposure ps (collectExposure q.1 q.2) emptyVEE) := hlook
    unfold getFullExposure
    rw [hlook2]
    rfl
  · intro q hq hqnel
    rw [hel] at hqnel
    rw [hex]
    have hkv : q.1 ∉ ((supports.filter (fun p =>
        p.1 ∈ (addElectables maxV [] (supports.map (fun p => p.1))).1)).map
          (fun p => (p.1, collectExposure p.1 p.2))).map Prod.fst := by
      intro hmem'
      rw [List.map_map] at hmem'
      rcases List.mem_map.mp hmem' with ⟨p, hp, hpeq⟩
      have hpel := (List.mem_filter.mp hp).2
      exact hqnel (hpeq ▸ of_decide_eq_true hpel)
    have hfilter := filter_key_nil _ q.1 hkv
    have hlook := alookup_store_call ps
      ((supports.filter (fun p =>
          p.1 ∈ (addElectables maxV [] (supports.map (fun p => p.1))).1)).map
        (fun p => (p.1, collectExposure p.1 p.2))) [] q.1
    rw [hfilter] at hlook
    have hlook2 : alookup
        ((storeStakersInfo ps
          ((supports.filter (fun p =>
              p.1 ∈ (addElectables maxV [] (supports.map (fun p => p.1))).1)).map
            (fun p => (p.1, collectExposure p.1 p.2))) []).1) q.1 = none := hlook
    unfold getFullExposure
    rw [hlook2]

/-- Witness for C5 at the scenario of
`overflow_electable_stashes_no_exposures_work` (`MaxValidatorSet = 2`, four
winners): the call errs, stashes 1 and 2 are retained with their exposures
stored, and dropped stash 3 has no exposure. -/
theorem do_elect_paged_inner_overflow_witness :
    (doElectPagedInner 2 64
      [(1, ⟨100, [(10, 1000)]⟩), (2, ⟨200, [(20, 2000)]⟩),
        (3, ⟨300, [(30, 3000)]⟩), (4, ⟨400, [(40, 4000)]⟩)]
      emptyElectState).2 = true ∧
    getFullExposure
      (doElectPagedInner 2 64
        [(1, ⟨100, [(10, 1000)]⟩), (2, ⟨200, [(20, 2000)]⟩),
          (3, ⟨300, [(30, 3000)]⟩), (4, ⟨400, [(40, 4000)]⟩)]
        emptyElectState).1.exposures 3 = ⟨0, 0, []⟩ :=
  ⟨(do_elect_paged_inner_overflow 2 64
      [(1, ⟨100, [(10, 1000)]⟩), (2, ⟨200, [(20, 2000)]⟩),
        (3, ⟨300, [(30, 3000)]⟩), (4, ⟨400, [(40, 4000)]⟩)]
      (by decide) (by decide)).1,
   (do_elect_paged_inner_overflow 2 64
      [(1, ⟨100, [(10, 1000)]⟩), (2, ⟨200, [(20, 2000)]⟩),
        (3, ⟨300, [(30, 3000)]⟩), (4, ⟨400, [(40, 4000)]⟩)]
      (by decide) (by decide)).2.2.2 (3, ⟨300, [(30, 3000)]⟩) (by decide)
      (by decide)⟩

/-- C7: the voter snapshot starts in `Waiting`; a request for a nonzero page
in `Waiting` moves the status to `Consumed` exactly when it serves the last
remaining voters; further nonzero-page requests in `Consumed` serve nothing
and change nothing; and the request for page 0 (the final page, since pages
are served in descending index order) resets the snapshot to `Waiting` for
the next cycle. -/
theorem voter_snapshot_status_cycle (voters : List Nat) (bound page : Nat)
    (st : VoterSnap) :
    (initVoterSnap voters).status = SnapshotStatus.waiting ∧
    (st.status = SnapshotStatus.waiting → 0 < page →
      ((electingVoters voters bound page st).2.status = SnapshotStatus.consumed ↔
        st.remaining.length ≤ bound)) ∧
    (st.status = SnapshotStatus.consumed → 0 < page →
      electingVoters voters bound page st = ([], st)) ∧
    (electingVoters voters bound 0 st).2 = initVoterSnap voters := by
  obtain ⟨rem, status⟩ := st
  refine ⟨rfl, ?_, ?_, ?_⟩
  · intro hw hp
    have hw' : status = SnapshotStatus.waiting := hw
    subst hw'
    simp only [electingVoters]
    rw [if_neg (by omega : ¬page = 0)]
    by_cases hr : (rem.drop bound).isEmpty
    · rw [if_pos hr]
      rw [List.isEmpty_iff, List.drop_eq_nil_iff_le] at hr
      simp [hr]
    · rw [if_neg hr]
      rw [List.isEmpty_iff, List.drop_eq_nil_iff_le] at hr
      simp [hr]
  · intro hc hp
    have hc' : status = SnapshotStatus.consumed := hc
    subst hc'
    simp only [electingVoters]
    rw [if_neg (by omega : ¬page = 0)]
  · cases status with
    | waiting => simp [electingVoters]
    | consumed => simp [electingVoters]

/-- Witness for C7 in `voter_snapshot_works`: serving page 2 (the page that
exhausts the six voters with bound 3) flips the status to `Consumed`. -/
theorem voter_snapshot_status_cycle_witness :
    (electingVoters [11, 21, 31, 41, 51, 101] 3 2
      ⟨[41, 51, 101], SnapshotStatus.waiting⟩).2.status =
      SnapshotStatus.consumed :=
  ((voter_snapshot_status_cycle [11, 21, 31, 41, 51, 101] 3 2
      ⟨[41, 51, 101], SnapshotStatus.waiting⟩).2.1 rfl (by decide)).mpr (by decide)

theorem servePages_consumed (voters : List Nat) (bound : Nat) :
    ∀ (n : Nat) (rem : List Nat),
      (servePages voters bound n ⟨rem, SnapshotStatus.consumed⟩).1 = [] ∧
      (servePages voters bound n ⟨rem, SnapshotStatus.consumed⟩).2 =
        initVoterSnap voters
  | 0, rem => by simp [servePages, electingVoters]
  | n + 1, rem => by
    have ih := servePages_consumed voters bound n rem
    simp only [servePages]
    have hr : electingVoters voters bound (n + 1) ⟨rem, SnapshotStatus.consumed⟩ =
        ([], ⟨rem, SnapshotStatus.consumed⟩) := by
      simp [electingVoters]
    rw [hr]
    simpa using ih

theorem servePages_waiting (voters : List Nat) (bound : Nat) (hb : 0 < bound) :
    ∀ (n : Nat) (rem : List Nat), rem.length ≤ bound * (n + 1) →
      (servePages voters bound n ⟨rem, SnapshotStatus.waiting⟩).1 = rem ∧
      (servePages voters bound n ⟨rem, SnapshotStatus.waiting⟩).2 =
        initVoterSnap voters
  | 0, rem, h => by
    simp only [servePages]
    have hev : electingVoters voters bound 0 ⟨rem, SnapshotStatus.waiting⟩ =
        (rem.take bound, initVoterSnap voters) := by
      simp [electingVoters]
    rw [hev]
    exact ⟨List.take_of_length_le (by omega), rfl⟩
  | n + 1, rem, h => by
    simp only [servePages]
    by_cases hr : (rem.drop bound).isEmpty
    · have hev : electingVoters voters bound (n + 1) ⟨rem, SnapshotStatus.waiting⟩ =
          (rem.take bound, ⟨rem.drop bound, SnapshotStatus.consumed⟩) := by
        simp [electingVoters, hr]
      rw [hev]
      have hcons := servePages_consumed voters bound n (rem.drop bound)
      rw [List.isEmpty_iff, List.drop_eq_nil_iff_le] at hr
      constructor
      · simp only []
        rw [hcons.1, List.append_nil]
        exact List.take_of_length_le hr
      · simpa using hcons.2
    · have hev : electingVoters voters bound (n + 1) ⟨rem, SnapshotStatus.waiting⟩ =
          (rem.take bound, ⟨rem.drop bound, SnapshotStatus.waiting⟩) := by
        simp [electingVoters, hr]
      rw [hev]
      have ih := servePages_waiting voters bound hb n (rem.drop bound)
        (by
          have hm : bound * (n + 1 + 1) = bound * (n + 1) + bound := by ring
          rw [hm] at h
          simp only [List.length_drop]
          omega)
      constructor
      · simp only []
        rw [ih.1, List.take_append_drop]
      · simpa using ih.2

/-- C10: serving all voter pages from the highest index down to page 0, with
any positive per-page bound and enough pages to cover the whole list, yields
— concatenated in serve order — exactly the voter list, which is also what a
single request with an unbounded (no-limit) bound returns; and once the list
is exhausted (status `Consumed`), remaining lower-indexed nonzero pages
return empty. -/
theorem paged_voters_complete (voters : List Nat) (bound n : Nat)
    (hb : 0 < bound) (hcov : voters.length ≤ bound * (n + 1)) :
    (servePages voters bound n (initVoterSnap voters)).1 = voters ∧
    (∀ ub, voters.length ≤ ub →
      (electingVoters voters ub 0 (initVoterSnap voters)).1 = voters) ∧
    (∀ p st', st'.status = SnapshotStatus.consumed → 0 < p →
      (electingVoters voters bound p st').1 = []) := by
  refine ⟨(servePages_waiting voters bound hb n voters hcov).1, ?_, ?_⟩
  · intro ub hub
    have hev : electingVoters voters ub 0 (initVoterSnap voters) =
        (voters.take ub, initVoterSnap voters) := by
      simp [electingVoters, initVoterSnap]
    rw [hev]
    exact List.take_of_length_le hub
  · intro p st' hc hp
    obtain ⟨rem, status⟩ := st'
    have hc' : status = SnapshotStatus.consumed := hc
    subst hc'
    simp only [electingVoters]
    rw [if_neg (by omega : ¬p = 0)]

/-- Witness for C10 at the `voter_snapshot_works` data: six voters, bound 3,
pages 3..0, plus the emulated no-bounds single-page request. -/
theorem paged_voters_complete_witness :
    (servePages [11, 21, 31, 41, 51, 101] 3 3
      (initVoterSnap [11, 21, 31, 41, 51, 101])).1 =
      [11, 21, 31, 41, 51, 101] ∧
    (electingVoters [11, 21, 31, 41, 51, 101] 1000 0
      (initVoterSnap [11, 21, 31, 41, 51, 101])).1 =
      [11, 21, 31, 41, 51, 101] :=
  ⟨(paged_voters_complete [11, 21, 31, 41, 51, 101] 3 3 (by decide)
      (by decide)).1,
   (paged_voters_complete [11, 21, 31, 41, 51, 101] 3 3 (by decide)
      (by decide)).2.1 1000 (by decide)⟩

/-- C8: `pool_account_id` succeeds with the account derived from the pallet
id and the pool id exactly when the pool exists in `Pools`, and fails with
`NonExistentPool` otherwise; likewise every reward-ledger mutating operation
(`stake`, `unstake`, `harvest_rewards`) on a nonexistent pool fails with
`NonExistentPool`, returning no new state (all state unchanged). -/
theorem nonexistent_pool_ops (st : RewardsState) (subAccount : Nat → Nat)
    (id now who amount : Nat) :
    ((alookup st.pools id).isSome →
      poolAccountId st.pools subAccount id = Except.ok (subAccount id)) ∧
    (alookup st.pools id = none →
      poolAccountId st.pools subAccount id =
        Except.error RewardsError.nonExistentPool ∧
      stake now id who amount st = Except.error RewardsError.nonExistentPool ∧
      unstake now id who amount st = Except.error RewardsError.nonExistentPool ∧
      harvestRewards now id who st = Except.error RewardsError.nonExistentPool) := by
  constructor
  · intro h
    unfold poolAccountId
    rw [if_pos h]
  · intro h
    refine ⟨?_, ?_, ?_, ?_⟩
    · unfold poolAccountId
      rw [if_neg (by simp [h])]
    · unfold stake
      split
      next => rfl
      next p0 heq => rw [h] at heq; cases heq
    · unfold unstake
      split
      next => rfl
      next p0 heq => rw [h] at heq; cases heq
    · unfold harvestRewards
      split
      next => rfl
      next p0 heq => rw [h] at heq; cases heq

/-- Witness for C8: on an empty pool map every operation on pool 7 fails
with `NonExistentPool`, and once pool 7 exists its pot account is the
derived sub-account. -/
theorem nonexistent_pool_ops_witness :
    poolAccountId ([] : List (Nat × PoolInfo)) (fun n => n + 1000) 7 =
      Except.error RewardsError.nonExistentPool ∧
    stake 5 7 42 100 ⟨[], []⟩ = Except.error RewardsError.nonExistentPool ∧
    unstake 5 7 42 100 ⟨[], []⟩ = Except.error RewardsError.nonExistentPool ∧
    harvestRewards 5 7 42 ⟨[], []⟩ = Except.error RewardsError.nonExistentPool ∧
    poolAccountId [(7, ⟨1, 2, 3, 0, 0, 0⟩)] (fun n => n + 1000) 7 =
      Except.ok 1007 :=
  ⟨((nonexistent_pool_ops ⟨[], []⟩ (fun n => n + 1000) 7 5 42 100).2 rfl).1,
   ((nonexistent_pool_ops ⟨[], []⟩ (fun n => n + 1000) 7 5 42 100).2 rfl).2.1,
   ((nonexistent_pool_ops ⟨[], []⟩ (fun n => n + 1000) 7 5 42 100).2 rfl).2.2.1,
   ((nonexistent_pool_ops ⟨[], []⟩ (fun n => n + 1000) 7 5 42 100).2 rfl).2.2.2,
   (nonexistent_pool_ops ⟨[(7, ⟨1, 2, 3, 0, 0, 0⟩)], []⟩ (fun n => n + 1000)
      7 5 42 100).1 rfl⟩

/-- The model of `ensure_snapshot_metadata_state` reproduces the five error
cases asserted by `try_state_failure_works` (prep scheduled for block 9). -/
theorem ensure_snapshot_metadata_state_matches_tests :
    ensureSnapshotMetadataState 8 9 ⟨none, [42], fun _ => 1⟩ =
      Except.error "unexpected electable stashes in storage while election prep has not started." ∧
    ensureSnapshotMetadataState 8 9 ⟨some 42, [], fun _ => 1⟩ =
      Except.error "unexpected election metadata while election prep has not started." ∧
    ensureSnapshotMetadataState 9 9 ⟨some 9, [11, 21], fun _ => 0⟩ =
      Except.error "no exposures collected for an electable stash." ∧
    ensureSnapshotMetadataState 9 9 ⟨none, [11, 21], fun _ => 1⟩ =
      Except.error "election prep should have started already, no election metadata in storage." ∧
    ensureSnapshotMetadataState 9 9 ⟨some 424242, [11, 21], fun _ => 1⟩ =
      Except.error "unexpected electing_started_at block number in storage." :=
  ⟨rfl, rfl, rfl, rfl, rfl⟩

/-- The exposure-store model reproduces the assertions of
`store_stakers_info_elect_works`: touched validators, both overviews after
the first call, and the full paged state after the second call. -/
theorem store_stakers_info_matches_tests :
    (storeStakersInfo 2 [(1, exposureOne), (2, exposureTwo)] []).2 = [1, 2] ∧
    (storeStakersInfo 2 [(1, exposureThree)]
      (storeStakersInfo 2 [(1, exposureOne), (2, exposureTwo)] []).1).2 = [1] ∧
    alookup (storeStakersInfo 2 [(1, exposureOne), (2, exposureTwo)] []).1 2 =
      some ⟨some ⟨2000, 1000, 2, 1⟩,
        [⟨1000, [⟨104, 500⟩, ⟨105, 500⟩]⟩]⟩ ∧
    alookup (storeStakersInfo 2 [(1, exposureThree)]
        (storeStakersInfo 2 [(1, exposureOne), (2, exposureTwo)] []).1).1 1 =
      some ⟨some ⟨2200, 1000, 5, 3⟩,
        [⟨600, [⟨101, 500⟩, ⟨102, 100⟩]⟩, ⟨350, [⟨103, 100⟩, ⟨110, 250⟩]⟩,
          ⟨250, [⟨111, 250⟩]⟩]⟩ := by decide

/-- The electable-stash model reproduces `add_electable_stashes_work`:
adding `[1,2,3]` and then `[1,2,4]` under bound 5 deduplicates to
`{1,2,3,4}` with no error. -/
theorem add_electables_matches_tests :
    addElectables 5 [] [1, 2, 3] = ([1, 2, 3], false) ∧
    addElectables 5 [1, 2, 3] [1, 2, 4] = ([1, 2, 3, 4], false) := by decide

/-- The voter-snapshot model reproduces `voter_snapshot_works`: pages 3 and
2 serve the six voters in order, pages 1 and 0 are empty, and the cycle ends
back in `Waiting`. -/
theorem voter_snapshot_matches_tests :
    (electingVoters [11, 21, 31, 41, 51, 101] 3 3
      (initVoterSnap [11, 21, 31, 41, 51, 101])).1 = [11, 21, 31] ∧
    (electingVoters [11, 21, 31, 41, 51, 101] 3 2
      ⟨[41, 51, 101], SnapshotStatus.waiting⟩).1 = [41, 51, 101] ∧
    (electingVoters [11, 21, 31, 41, 51, 101] 3 1
      ⟨[], SnapshotStatus.consumed⟩).1 = [] ∧
    (electingVoters [11, 21, 31, 41, 51, 101] 3 0
      ⟨[], SnapshotStatus.consumed⟩).2 =
      initVoterSnap [11, 21, 31, 41, 51, 101] := by decide
